import Mathlib

/-! The line diff of `Format` in posener/diff.

A shallow embedding of `src/diff.go` and a verification of the properties its
specification states.

Modelling decisions.

* A Go `string` is a sequence of bytes; it is embedded as `List Char`, one
  element per byte. The only bytes the program inspects are the separator
  `"\n"` and the bytes it writes itself, so nothing depends on the element type
  beyond decidable equality.
* A Go `int` is embedded as `Nat`. Every integer the program computes is an
  index into, or a length of, a slice it has allocated, or an edit cost bounded
  by the sum of two such lengths; none can wrap.
* Every slice expression and every index expression is fallible (`Option`):
  `none` stands for the run-time panic of an access out of range.
* The traceback `for` loop is run on fuel; running out of fuel is `none` too.
-/

namespace diff

/-! ## The embedding of `src/diff.go` -/

/-- A Go string. -/
abbrev GoString := List Char

/-- The `config` struct (diff.go:13). The zero value has `suppressCommon = false`. -/
structure config where
  suppressCommon : Bool := false
  deriving DecidableEq

/-- The `option` function type (diff.go:17); the pointer receiver is embedded as state
passing. -/
abbrev option := config → config

/-- The option `OptSuppressCommon` (diff.go:20). -/
def OptSuppressCommon : option := fun c => { c with suppressCommon := true }

/-- The marker appended to a text without final newline (diff.go:37, 42). -/
def missingFinalNewline : GoString := "(missing final newline)".toList

/-- The library function `strings.HasSuffix`. -/
def HasSuffix (s suffix : GoString) : Bool := suffix.isSuffixOf s

/-- The library function `strings.Split(s, sep)` for a separator of one byte: the pieces of `s` between the
occurrences of `sep`; one more piece than there are occurrences. -/
def Split (s : GoString) (sep : Char) : List GoString :=
  match s with
  | [] => [[]]
  | ch :: rest =>
    if ch = sep then [] :: Split rest sep
    else
      match Split rest sep with
      | [] => [[ch]]
      | piece :: pieces => (ch :: piece) :: pieces

/-- The splitter, diff.go:36-40 (and again 41-45): mark a missing final newline, split
at `"\n"`, and drop the last piece with `lines[:len(lines)-1]`. The slice expression
panics when `len(lines) = 0`. -/
def splitLines (text : GoString) : Option (List GoString) :=
  let text :=
    if text ≠ [] ∧ ¬ HasSuffix text ['\n'] then text ++ missingFinalNewline else text
  let lines := Split text '\n'
  if lines.length = 0 then none else some (lines.take (lines.length - 1))

/-- The read `dist[i][j]`. -/
def getCell (dist : List (List Nat)) (i j : Nat) : Option Nat :=
  match dist[i]? with
  | none => none
  | some row => row[j]?

/-- The write `dist[i][j] = v`. -/
def setCell (dist : List (List Nat)) (i j v : Nat) : Option (List (List Nat)) :=
  match dist[i]? with
  | none => none
  | some row => if j < row.length then some (dist.set i (row.set j v)) else none

/-- The body of the loop over `j` for a row `i > 0` (diff.go:62-75). -/
def fillCell (lines1 lines2 : List GoString) (i : Nat) (dist : List (List Nat)) (j : Nat) :
    Option (List (List Nat)) :=
  if j = 0 then setCell dist i 0 i
  else
    match getCell dist i (j - 1) with
    | none => none
    | some left =>
      let cost := left + 1
      match getCell dist (i - 1) j with
      | none => none
      | some up =>
        let cost := if cost > up + 1 then up + 1 else cost
        match lines1[lines1.length - i]?, lines2[lines2.length - j]? with
        | some l1, some l2 =>
          if l1 = l2 then
            match getCell dist (i - 1) (j - 1) with
            | none => none
            | some diag =>
              let cost := if cost > diag then diag else cost
              setCell dist i j cost
          else setCell dist i j cost
        | _, _ => none

/-- The body of the loop over `i` (diff.go:54-76): allocate row `i`, then fill it. -/
def fillRow (lines1 lines2 : List GoString) (dist : List (List Nat)) (i : Nat) :
    Option (List (List Nat)) :=
  if i < dist.length then
    let dist := dist.set i (List.replicate (lines2.length + 1) 0)
    if i = 0 then
      (List.range (lines2.length + 1)).foldlM (fun d j => setCell d 0 j j) dist
    else
      (List.range (lines2.length + 1)).foldlM (fillCell lines1 lines2 i) dist
  else none

/-- The table `dist` (diff.go:52-77). -/
def buildDist (lines1 lines2 : List GoString) : Option (List (List Nat)) :=
  (List.range (lines1.length + 1)).foldlM (fillRow lines1 lines2)
    (List.replicate (lines1.length + 1) [])

/-- The decimal digits `fmt.Fprint` writes for a non-negative `int`. -/
def decimal (k : Nat) : GoString := Nat.toDigits 10 k

/-- The condition of the first branch of the traceback (diff.go:83), evaluated left to
right with short circuit. -/
def matchCond (lines1 lines2 : List GoString) (dist : List (List Nat)) (i j cost : Nat) :
    Option Bool :=
  if i > 0 ∧ j > 0 then
    match getCell dist (i - 1) (j - 1) with
    | none => none
    | some diag =>
      if cost = diag then
        match lines1[lines1.length - i]?, lines2[lines2.length - j]? with
        | some l1, some l2 => some (decide (l1 = l2))
        | _, _ => none
      else some false
  else some false

/-- The condition of the second branch of the traceback (diff.go:90). -/
def deleteCond (dist : List (List Nat)) (i j cost : Nat) : Option Bool :=
  if i > 0 then
    match getCell dist (i - 1) j with
    | none => none
    | some up => some (decide (cost = up + 1))
  else some false

/-- One iteration of the traceback loop (diff.go:82-104): the next `i`, `j` and buffer. -/
def traceStep (c : config) (lines1 lines2 : List GoString) (dist : List (List Nat))
    (i j : Nat) (buf : GoString) : Option (Nat × Nat × GoString) :=
  match getCell dist i j with
  | none => none
  | some cost =>
    match matchCond lines1 lines2 dist i j cost with
    | none => none
    | some true =>
      if ¬ c.suppressCommon then
        let k := lines1.length - i
        match lines1[k]? with
        | none => none
        | some l => some (i - 1, j - 1, buf ++ [' '] ++ l ++ ['\n'])
      else some (i - 1, j - 1, buf)
    | some false =>
      match deleteCond dist i j cost with
      | none => none
      | some true =>
        let k := lines1.length - i
        let buf := if c.suppressCommon then buf ++ decimal (k + 1) else buf
        match lines1[k]? with
        | none => none
        | some l => some (i - 1, j, buf ++ ['-'] ++ l ++ ['\n'])
      | some false =>
        let k := lines2.length - j
        let buf := if c.suppressCommon then buf ++ decimal (k + 1) else buf
        match lines2[k]? with
        | none => none
        | some l => some (i, j - 1, buf ++ ['+'] ++ l ++ ['\n'])

/-- The traceback loop `for i > 0 || j > 0` (diff.go:81-105). -/
def traceLoop (c : config) (lines1 lines2 : List GoString) (dist : List (List Nat)) :
    Nat → Nat → Nat → GoString → Option GoString
  | fuel, i, j, buf =>
    if i > 0 ∨ j > 0 then
      match fuel with
      | 0 => none
      | fuel + 1 =>
        match traceStep c lines1 lines2 dist i j buf with
        | none => none
        | some (i, j, buf) => traceLoop c lines1 lines2 dist fuel i j buf
    else some buf

/-- The function `Format` (diff.go:31). Each iteration of the traceback that does not panic lowers
`i + j` by one, so `len(lines1) + len(lines2)` iterations are all the loop can make. -/
def Format (text1 text2 : GoString) (options : List option) : Option GoString :=
  let c : config := options.foldl (fun c opt => opt c) {}
  match splitLines text1 with
  | none => none
  | some lines1 =>
    match splitLines text2 with
    | none => none
    | some lines2 =>
      match buildDist lines1 lines2 with
      | none => none
      | some dist =>
        traceLoop c lines1 lines2 dist (lines1.length + lines2.length)
          lines1.length lines2.length []

/-! ## Definitions used to state and prove the properties -/

/-- The line sequence `lines1[:len(lines1)-1]` of a text, without the possibility of a
panic: the pieces of the (marked) text but the last. -/
def lines (text : GoString) : List GoString :=
  (Split (if text ≠ [] ∧ ¬ HasSuffix text ['\n'] then text ++ missingFinalNewline else text)
    '\n').dropLast

/-- The newline-terminated text of a line sequence. -/
def joinLines : List GoString → GoString
  | [] => []
  | l :: ls => l ++ '\n' :: joinLines ls

/-- The lines of an output of `Format`: the pieces between its newlines; the piece after
the last newline is no line. -/
def outputLines (out : GoString) : List GoString := (Split out '\n').dropLast

/-- The number of lines of an output that start with `-` or `+`. -/
def changedCount (out : GoString) : Nat :=
  ((outputLines out).filter
    (fun l => decide (l.head? = some '-') || decide (l.head? = some '+'))).length

/-- The recurrence of diff.go:66-75 on the remaining lines: `editDist xs ys` is the value
the program stores in `dist[len xs][len ys]` when `xs` and `ys` are the last lines of
`lines1` and `lines2`. -/
def editDist {α : Type} [DecidableEq α] : List α → List α → Nat
  | [], ys => ys.length
  | x :: xs, [] => (x :: xs).length
  | x :: xs, y :: ys =>
    let cost := editDist (x :: xs) ys + 1
    let cost := if cost > editDist xs (y :: ys) + 1 then editDist xs (y :: ys) + 1 else cost
    if x = y then (if cost > editDist xs ys then editDist xs ys else cost) else cost
termination_by xs ys => xs.length + ys.length

/-- One emitted line of the rendered diff. -/
inductive EditOp where
  | Keep (l : GoString)
  | Delete (l : GoString)
  | Insert (l : GoString)
  deriving DecidableEq

/-- The operations the traceback emits (diff.go:81-105) when `xs` and `ys` are the
remaining lines, the table being read through `editDist`. -/
def script : List GoString → List GoString → List EditOp
  | [], [] => []
  | [], y :: ys => EditOp.Insert y :: script [] ys
  | x :: xs, [] => EditOp.Delete x :: script xs []
  | x :: xs, y :: ys =>
    if editDist (x :: xs) (y :: ys) = editDist xs ys ∧ x = y then
      EditOp.Keep x :: script xs ys
    else if editDist (x :: xs) (y :: ys) = editDist xs (y :: ys) + 1 then
      EditOp.Delete x :: script xs (y :: ys)
    else EditOp.Insert y :: script (x :: xs) ys
termination_by xs ys => xs.length + ys.length

/-- The text written for a list of operations (diff.go:84-103); `k1` and `k2` are the
numbers of lines of `lines1` and `lines2` already passed. -/
def render (c : config) : Nat → Nat → List EditOp → GoString
  | _, _, [] => []
  | k1, k2, EditOp.Keep l :: ops =>
    (if c.suppressCommon then [] else [' '] ++ l ++ ['\n']) ++ render c (k1 + 1) (k2 + 1) ops
  | k1, k2, EditOp.Delete l :: ops =>
    (if c.suppressCommon then decimal (k1 + 1) else []) ++ (['-'] ++ l ++ ['\n'])
      ++ render c (k1 + 1) k2 ops
  | k1, k2, EditOp.Insert l :: ops =>
    (if c.suppressCommon then decimal (k2 + 1) else []) ++ (['+'] ++ l ++ ['\n'])
      ++ render c k1 (k2 + 1) ops

/-- The suppressed output computed from the lines of the unsuppressed one; `p` and `q`
count the lines of the first and of the second text passed so far. -/
def suppressFrom : Nat → Nat → List GoString → GoString
  | _, _, [] => []
  | p, q, (' ' :: _) :: ls => suppressFrom (p + 1) (q + 1) ls
  | p, q, ('-' :: l) :: ls => decimal (p + 1) ++ (['-'] ++ l ++ ['\n']) ++ suppressFrom (p + 1) q ls
  | p, q, ('+' :: l) :: ls => decimal (q + 1) ++ (['+'] ++ l ++ ['\n']) ++ suppressFrom p (q + 1) ls
  | p, q, _ :: ls => suppressFrom p q ls

/-- The value the table holds at `(i, j)`: the recurrence on the last `i` lines of
`lines1` and the last `j` lines of `lines2`. -/
def distSpec (lines1 lines2 : List GoString) (i j : Nat) : Nat :=
  editDist (lines1.drop (lines1.length - i)) (lines2.drop (lines2.length - j))

/-- The table is filled in all rows below `i`. -/
def RowsFilled (lines1 lines2 : List GoString) (i : Nat) (dist : List (List Nat)) : Prop :=
  dist.length = lines1.length + 1 ∧
  ∀ i' j, i' < i → j ≤ lines2.length → getCell dist i' j = some (distSpec lines1 lines2 i' j)

/-- The table is filled in all rows below `i`, and row `i` is allocated and filled in
all columns below `k`. -/
def CellsFilled (lines1 lines2 : List GoString) (i k : Nat) (dist : List (List Nat)) : Prop :=
  RowsFilled lines1 lines2 i dist ∧
  (∃ row, dist[i]? = some row ∧ row.length = lines2.length + 1) ∧
  ∀ j, j < k → getCell dist i j = some (distSpec lines1 lines2 i j)

/-- The output line of an operation: its marker and the line. -/
def opLine : EditOp → GoString
  | EditOp.Keep l => ' ' :: l
  | EditOp.Delete l => '-' :: l
  | EditOp.Insert l => '+' :: l

/-- The lines a script consumes from the first sequence: the kept and the deleted. -/
def scriptSource : List EditOp → List GoString
  | [] => []
  | EditOp.Keep l :: ops => l :: scriptSource ops
  | EditOp.Delete l :: ops => l :: scriptSource ops
  | EditOp.Insert _ :: ops => scriptSource ops

/-- The lines a script produces for the second sequence: the kept and the inserted. -/
def scriptTarget : List EditOp → List GoString
  | [] => []
  | EditOp.Keep l :: ops => l :: scriptTarget ops
  | EditOp.Delete _ :: ops => scriptTarget ops
  | EditOp.Insert l :: ops => l :: scriptTarget ops

/-- The kept lines of a script. -/
def scriptKept : List EditOp → List GoString
  | [] => []
  | EditOp.Keep l :: ops => l :: scriptKept ops
  | EditOp.Delete _ :: ops => scriptKept ops
  | EditOp.Insert _ :: ops => scriptKept ops

/-- The number of Delete and Insert operations of a script. -/
def scriptCost : List EditOp → Nat
  | [] => 0
  | EditOp.Keep _ :: ops => scriptCost ops
  | EditOp.Delete _ :: ops => scriptCost ops + 1
  | EditOp.Insert _ :: ops => scriptCost ops + 1

/-- The lines of an output that do not start with `marker`, without their first
character. -/
def dropMarked (marker : Char) (out : GoString) : List GoString :=
  ((outputLines out).filter (fun l => ! decide (l.head? = some marker))).map List.tail

/-- Every line with `marker` in front, newline-terminated. -/
def markedText (marker : Char) (ls : List GoString) : GoString :=
  joinLines (ls.map (fun l => marker :: l))

/-- Every line with its number (counted from `k + 1`) and `marker` in front,
newline-terminated. -/
def numberedText (marker : Char) : Nat → List GoString → GoString
  | _, [] => []
  | k, l :: ls => decimal (k + 1) ++ (marker :: l ++ ['\n']) ++ numberedText marker (k + 1) ls

/-- The number `d` is the edit distance of `xs` and `ys`: some script of Keep, Delete and
Insert operations turns `xs` into `ys` with `d` Delete and Insert operations, and none
does with fewer. -/
def IsEditDistance (xs ys : List GoString) (d : Nat) : Prop :=
  (∃ ops : List EditOp, scriptSource ops = xs ∧ scriptTarget ops = ys ∧ scriptCost ops = d) ∧
  ∀ ops : List EditOp, scriptSource ops = xs → scriptTarget ops = ys → d ≤ scriptCost ops

/-- The states `(i, j, buf)` the traceback loop of `Format` goes through: the state it
starts in, and the state after an iteration made in a state it goes through. -/
inductive Reached (c : config) (lines1 lines2 : List GoString) (dist : List (List Nat)) :
    Nat → Nat → GoString → Prop where
  | start : Reached c lines1 lines2 dist lines1.length lines2.length []
  | step {i j : Nat} {buf : GoString} {i2 j2 : Nat} {buf2 : GoString} :
      Reached c lines1 lines2 dist i j buf → (i > 0 ∨ j > 0) →
      traceStep c lines1 lines2 dist i j buf = some (i2, j2, buf2) →
      Reached c lines1 lines2 dist i2 j2 buf2

/-- The match condition of the variant of C16: only `i > 0`, `j > 0` and the equality of
the two current lines; the cost test `cost == dist[i-1][j-1]` is left out. -/
def matchCondGreedy (lines1 lines2 : List GoString) (i j : Nat) : Option Bool :=
  if i > 0 ∧ j > 0 then
    match lines1[lines1.length - i]?, lines2[lines2.length - j]? with
    | some l1, some l2 => some (decide (l1 = l2))
    | _, _ => none
  else some false

/-- One iteration of the traceback loop of the variant of C16: `traceStep` with
`matchCondGreedy` for `matchCond`. -/
def traceStepGreedy (c : config) (lines1 lines2 : List GoString) (dist : List (List Nat))
    (i j : Nat) (buf : GoString) : Option (Nat × Nat × GoString) :=
  match getCell dist i j with
  | none => none
  | some cost =>
    match matchCondGreedy lines1 lines2 i j with
    | none => none
    | some true =>
      if ¬ c.suppressCommon then
        let k := lines1.length - i
        match lines1[k]? with
        | none => none
        | some l => some (i - 1, j - 1, buf ++ [' '] ++ l ++ ['\n'])
      else some (i - 1, j - 1, buf)
    | some false =>
      match deleteCond dist i j cost with
      | none => none
      | some true =>
        let k := lines1.length - i
        let buf := if c.suppressCommon then buf ++ decimal (k + 1) else buf
        match lines1[k]? with
        | none => none
        | some l => some (i - 1, j, buf ++ ['-'] ++ l ++ ['\n'])
      | some false =>
        let k := lines2.length - j
        let buf := if c.suppressCommon then buf ++ decimal (k + 1) else buf
        match lines2[k]? with
        | none => none
        | some l => some (i, j - 1, buf ++ ['+'] ++ l ++ ['\n'])

/-- The traceback loop of the variant of C16. -/
def traceLoopGreedy (c : config) (lines1 lines2 : List GoString) (dist : List (List Nat)) :
    Nat → Nat → Nat → GoString → Option GoString
  | fuel, i, j, buf =>
    if i > 0 ∨ j > 0 then
      match fuel with
      | 0 => none
      | fuel + 1 =>
        match traceStepGreedy c lines1 lines2 dist i j buf with
        | none => none
        | some (i, j, buf) => traceLoopGreedy c lines1 lines2 dist fuel i j buf
    else some buf

/-- The variant of `Format` of C16, whose match condition is only `i > 0`, `j > 0` and
line equality. -/
def FormatGreedy (text1 text2 : GoString) (options : List option) : Option GoString :=
  let c : config := options.foldl (fun c opt => opt c) {}
  match splitLines text1 with
  | none => none
  | some lines1 =>
    match splitLines text2 with
    | none => none
    | some lines2 =>
      match buildDist lines1 lines2 with
      | none => none
      | some dist =>
        traceLoopGreedy c lines1 lines2 dist (lines1.length + lines2.length)
          lines1.length lines2.length []

/-- No line starting with `+` is immediately followed by a line starting with `-`. -/
def noPlusThenMinus : List GoString → Bool
  | a :: b :: rest =>
    (!(decide (a.head? = some '+') && decide (b.head? = some '-')))
      && noPlusThenMinus (b :: rest)
  | _ => true

/-! ## The splitter -/

theorem Split_ne_nil (s : GoString) (sep : Char) : Split s sep ≠ [] := by
  induction s with
  | nil => simp [Split]
  | cons ch rest ih =>
    unfold Split
    split
    · simp
    · split <;> simp

theorem splitLines_eq (text : GoString) : splitLines text = some (lines text) := by
  unfold splitLines lines
  simp only []
  rw [if_neg]
  · rw [List.dropLast_eq_take]
  · intro h
    exact Split_ne_nil _ _ (List.length_eq_zero.mp h)

theorem Split_no_sep (s : GoString) (sep : Char) (h : sep ∉ s) : Split s sep = [s] := by
  induction s with
  | nil => simp [Split]
  | cons ch rest ih =>
    have h1 : ch ≠ sep := fun e => h (by simp [e])
    have h2 : sep ∉ rest := fun e => h (List.mem_cons_of_mem _ e)
    rw [Split, if_neg h1, ih h2]

theorem Split_append_sep (l rest : GoString) (sep : Char) (h : sep ∉ l) :
    Split (l ++ sep :: rest) sep = l :: Split rest sep := by
  induction l with
  | nil => simp [Split]
  | cons ch l ih =>
    have h1 : ch ≠ sep := fun e => h (by simp [e])
    have h2 : sep ∉ l := fun e => h (List.mem_cons_of_mem _ e)
    rw [List.cons_append, Split, if_neg h1, ih h2]

theorem Split_mem (s : GoString) (sep : Char) : ∀ l ∈ Split s sep, sep ∉ l := by
  induction s with
  | nil => simp [Split]
  | cons ch rest ih =>
    unfold Split
    by_cases h : ch = sep
    · rw [if_pos h]
      intro l hl
      rcases List.mem_cons.mp hl with e | e
      · simp [e]
      · exact ih l e
    · rw [if_neg h]
      cases hs : Split rest sep with
      | nil => exact absurd hs (Split_ne_nil rest sep)
      | cons piece pieces =>
        rw [hs] at ih
        intro l hl
        rcases List.mem_cons.mp hl with e | e
        · subst e
          intro hm
          rcases List.mem_cons.mp hm with e' | e'
          · exact h e'.symm
          · exact ih piece (List.mem_cons_self _ _) e'
        · exact ih l (List.mem_cons_of_mem _ e)

theorem Split_joinLines (ls : List GoString) (h : ∀ l ∈ ls, '\n' ∉ l) :
    Split (joinLines ls) '\n' = ls ++ [[]] := by
  induction ls with
  | nil => simp [joinLines, Split]
  | cons l ls ih =>
    rw [joinLines, Split_append_sep l _ '\n' (h l (List.mem_cons_self _ _)),
      ih (fun l' hl' => h l' (List.mem_cons_of_mem _ hl'))]
    rfl

theorem outputLines_joinLines (ls : List GoString) (h : ∀ l ∈ ls, '\n' ∉ l) :
    outputLines (joinLines ls) = ls := by
  unfold outputLines
  rw [Split_joinLines ls h, List.dropLast_concat]

theorem lines_no_newline (text : GoString) : ∀ l ∈ lines text, '\n' ∉ l := by
  intro l hl
  unfold lines at hl
  exact Split_mem _ _ l (List.mem_of_mem_dropLast hl)

/-- A newline-terminated text is split into its lines. -/
theorem lines_joinLines (ls : List GoString) (h : ∀ l ∈ ls, '\n' ∉ l) :
    lines (joinLines ls) = ls := by
  have hs : ¬ (joinLines ls ≠ [] ∧ ¬ HasSuffix (joinLines ls) ['\n'] = true) := by
    rintro ⟨h1, h2⟩
    apply h2
    unfold HasSuffix
    rw [List.isSuffixOf_iff_suffix]
    clear h2 h
    induction ls with
    | nil => exact absurd rfl h1
    | cons l ls ih =>
      cases ls with
      | nil => exact ⟨l, by simp [joinLines]⟩
      | cons l' ls' =>
        obtain ⟨t, ht⟩ := ih (by simp [joinLines])
        exact ⟨l ++ '\n' :: t, by rw [joinLines, ← ht]; simp⟩
  unfold lines
  rw [if_neg hs]
  exact outputLines_joinLines ls h

/-! ## The table -/

theorem editDist_nil_left {α : Type} [DecidableEq α] (ys : List α) :
    editDist [] ys = ys.length := by
  simp [editDist]

theorem editDist_nil_right {α : Type} [DecidableEq α] (xs : List α) :
    editDist xs [] = xs.length := by
  cases xs <;> simp [editDist]

/-- A loop over `range n` that keeps an invariant returns, and the invariant holds at
its end. -/
theorem foldlM_range_inv {β : Type} (f : β → Nat → Option β) (P : Nat → β → Prop) :
    ∀ (n : Nat) (b0 : β), P 0 b0 →
      (∀ k b, k < n → P k b → ∃ b', f b k = some b' ∧ P (k + 1) b') →
      ∃ b, (List.range n).foldlM f b0 = some b ∧ P n b := by
  intro n
  induction n with
  | zero =>
    intro b0 h0 _
    exact ⟨b0, by simp, h0⟩
  | succ n ih =>
    intro b0 h0 hstep
    obtain ⟨b, hb, hP⟩ := ih b0 h0 (fun k b hk hP => hstep k b (Nat.lt_succ_of_lt hk) hP)
    obtain ⟨b', hb', hP'⟩ := hstep n b (Nat.lt_succ_self n) hP
    refine ⟨b', ?_, hP'⟩
    rw [List.range_succ, List.foldlM_append, hb]
    simp [hb']


theorem getCell_set (dist : List (List Nat)) (row : List Nat) (i j v i' j' : Nat)
    (hrow : dist[i]? = some row) :
    getCell (dist.set i (row.set j v)) i' j' =
      if i' = i ∧ j' = j ∧ j < row.length then some v else getCell dist i' j' := by
  have hi : i < dist.length := by
    rcases Nat.lt_or_ge i dist.length with h | h
    · exact h
    · rw [List.getElem?_eq_none h] at hrow
      cases hrow
  unfold getCell
  by_cases h1 : i' = i
  · subst h1
    simp only [List.getElem?_set, hi, if_true, hrow, true_and]
    by_cases h2 : j' = j
    · subst h2
      by_cases h3 : j' < row.length
      · simp [h3]
      · simp [h3]
        omega
    · have : ¬ j = j' := fun h => h2 h.symm
      simp [this, h2]
  · have : ¬ i = i' := fun h => h1 h.symm
    simp [List.getElem?_set, this, h1]

theorem setCell_eq (dist : List (List Nat)) (row : List Nat) (i j v : Nat)
    (hrow : dist[i]? = some row) (hj : j < row.length) :
    setCell dist i j v = some (dist.set i (row.set j v)) := by
  simp [setCell, hrow, hj]

/-- Writing the right value into column `k` of row `i` extends the filled part. -/
theorem CellsFilled_set (lines1 lines2 : List GoString) (i k : Nat) (dist : List (List Nat))
    (h : CellsFilled lines1 lines2 i k dist) (hk : k ≤ lines2.length) :
    ∃ dist', setCell dist i k (distSpec lines1 lines2 i k) = some dist' ∧
      CellsFilled lines1 lines2 i (k + 1) dist' := by
  obtain ⟨⟨hlen, hrows⟩, ⟨row, hrow, hrl⟩, hcells⟩ := h
  have hi : i < dist.length := by
    rcases Nat.lt_or_ge i dist.length with h | h
    · exact h
    · rw [List.getElem?_eq_none h] at hrow
      cases hrow
  have hkr : k < row.length := by omega
  refine ⟨_, setCell_eq dist row i k _ hrow hkr, ⟨?_, ?_⟩,
    ⟨row.set k (distSpec lines1 lines2 i k), ?_, ?_⟩, ?_⟩
  · simpa using hlen
  · intro i' j hi' hj
    rw [getCell_set dist row i k _ i' j hrow, if_neg (by omega)]
    exact hrows i' j hi' hj
  · simp [List.getElem?_set, hi]
  · simpa using hrl
  · intro j hj
    rw [getCell_set dist row i k _ i j hrow]
    by_cases hjk : j = k
    · subst hjk
      simp [hkr]
    · rw [if_neg (by omega)]
      exact hcells j (by omega)

theorem distSpec_zero_left (lines1 lines2 : List GoString) (j : Nat)
    (hj : j ≤ lines2.length) : distSpec lines1 lines2 0 j = j := by
  unfold distSpec
  rw [Nat.sub_zero, List.drop_length, editDist_nil_left, List.length_drop]
  omega

theorem distSpec_zero_right (lines1 lines2 : List GoString) (i : Nat)
    (hi : i ≤ lines1.length) : distSpec lines1 lines2 i 0 = i := by
  unfold distSpec
  rw [Nat.sub_zero, List.drop_length, editDist_nil_right, List.length_drop]
  omega

/-- The recurrence of diff.go:66-75 in terms of table entries. -/
theorem distSpec_succ (lines1 lines2 : List GoString) (i j : Nat) (x y : GoString)
    (hi0 : 0 < i) (hj0 : 0 < j) (hi : i ≤ lines1.length) (hj : j ≤ lines2.length)
    (hx : lines1[lines1.length - i]? = some x) (hy : lines2[lines2.length - j]? = some y) :
    distSpec lines1 lines2 i j =
      (let cost := distSpec lines1 lines2 i (j - 1) + 1
       let cost := if cost > distSpec lines1 lines2 (i - 1) j + 1
         then distSpec lines1 lines2 (i - 1) j + 1 else cost
       if x = y then
         (if cost > distSpec lines1 lines2 (i - 1) (j - 1)
           then distSpec lines1 lines2 (i - 1) (j - 1) else cost)
       else cost) := by
  obtain ⟨hx1, hx2⟩ := List.getElem?_eq_some.mp hx
  obtain ⟨hy1, hy2⟩ := List.getElem?_eq_some.mp hy
  have e1 : lines1.length - (i - 1) = lines1.length - i + 1 := by omega
  have e2 : lines2.length - (j - 1) = lines2.length - j + 1 := by omega
  unfold distSpec
  rw [e1, e2, List.drop_eq_getElem_cons hx1, List.drop_eq_getElem_cons hy1, hx2, hy2]
  rw [editDist]

theorem getElem?_line (ls : List GoString) (i : Nat) (hi0 : 0 < i) (hi : i ≤ ls.length) :
    ∃ x, ls[ls.length - i]? = some x :=
  ⟨ls[ls.length - i], List.getElem?_eq_getElem (by omega)⟩

/-- The body of the loop over `j` fills column `k` of a row `i > 0`. -/
theorem fillCell_step (lines1 lines2 : List GoString) (i k : Nat) (dist : List (List Nat))
    (hi0 : 0 < i) (hi : i ≤ lines1.length) (hk : k ≤ lines2.length)
    (h : CellsFilled lines1 lines2 i k dist) :
    ∃ dist', fillCell lines1 lines2 i dist k = some dist' ∧
      CellsFilled lines1 lines2 i (k + 1) dist' := by
  have hset := CellsFilled_set lines1 lines2 i k dist h hk
  unfold fillCell
  by_cases hk0 : k = 0
  · subst hk0
    rw [if_pos rfl]
    rw [distSpec_zero_right lines1 lines2 i hi] at hset
    exact hset
  · rw [if_neg hk0]
    obtain ⟨⟨_, hrows⟩, _, hcells⟩ := h
    obtain ⟨x, hx⟩ := getElem?_line lines1 i hi0 hi
    obtain ⟨y, hy⟩ := getElem?_line lines2 k (by omega) hk
    rw [hcells (k - 1) (by omega), hrows (i - 1) k (by omega) hk]
    simp only [hx, hy]
    rw [distSpec_succ lines1 lines2 i k x y hi0 (by omega) hi hk hx hy] at hset
    by_cases hxy : x = y
    · rw [if_pos hxy, hrows (i - 1) (k - 1) (by omega) (by omega)]
      simp only [if_pos hxy] at hset
      exact hset
    · rw [if_neg hxy]
      simp only [if_neg hxy] at hset
      exact hset

/-- The body of the loop over `j` in row `0`. -/
theorem fillZero_step (lines1 lines2 : List GoString) (k : Nat) (dist : List (List Nat))
    (hk : k ≤ lines2.length) (h : CellsFilled lines1 lines2 0 k dist) :
    ∃ dist', setCell dist 0 k k = some dist' ∧ CellsFilled lines1 lines2 0 (k + 1) dist' := by
  have hset := CellsFilled_set lines1 lines2 0 k dist h hk
  rw [distSpec_zero_left lines1 lines2 k hk] at hset
  exact hset

/-- The body of the loop over `i` fills row `i`. -/
theorem fillRow_step (lines1 lines2 : List GoString) (i : Nat) (dist : List (List Nat))
    (hi : i ≤ lines1.length) (h : RowsFilled lines1 lines2 i dist) :
    ∃ dist', fillRow lines1 lines2 dist i = some dist' ∧
      RowsFilled lines1 lines2 (i + 1) dist' := by
  obtain ⟨hlen, hrows⟩ := h
  have hil : i < dist.length := by omega
  have h0 : CellsFilled lines1 lines2 i 0
      (dist.set i (List.replicate (lines2.length + 1) 0)) := by
    refine ⟨⟨by simpa using hlen, ?_⟩, ⟨List.replicate (lines2.length + 1) 0, ?_, by simp⟩, ?_⟩
    · intro i' j hi' hj
      rw [← hrows i' j hi' hj]
      unfold getCell
      rw [List.getElem?_set_ne (by omega)]
    · simp [List.getElem?_set, hil]
    · intro j hj
      omega
  have hfin : ∀ d, CellsFilled lines1 lines2 i (lines2.length + 1) d →
      RowsFilled lines1 lines2 (i + 1) d := by
    intro d hd
    obtain ⟨⟨hl, hr⟩, _, hc⟩ := hd
    refine ⟨hl, ?_⟩
    intro i' j hi' hj
    by_cases hii : i' = i
    · subst hii
      exact hc j (by omega)
    · exact hr i' j (by omega) hj
  unfold fillRow
  rw [if_pos hil]
  simp only []
  by_cases hi0 : i = 0
  · subst hi0
    rw [if_pos rfl]
    obtain ⟨d, hd, hP⟩ := foldlM_range_inv (fun d j => setCell d 0 j j)
      (fun k d => CellsFilled lines1 lines2 0 k d) (lines2.length + 1) _ h0
      (fun k d hk hP => fillZero_step lines1 lines2 k d (by omega) hP)
    exact ⟨d, hd, hfin d hP⟩
  · rw [if_neg hi0]
    obtain ⟨d, hd, hP⟩ := foldlM_range_inv (fillCell lines1 lines2 i)
      (fun k d => CellsFilled lines1 lines2 i k d) (lines2.length + 1) _ h0
      (fun k d hk hP => fillCell_step lines1 lines2 i k d (by omega) hi (by omega) hP)
    exact ⟨d, hd, hfin d hP⟩

/-- The table is built without a panic and holds the recurrence everywhere. -/
theorem buildDist_spec (lines1 lines2 : List GoString) :
    ∃ dist, buildDist lines1 lines2 = some dist ∧
      ∀ i j, i ≤ lines1.length → j ≤ lines2.length →
        getCell dist i j = some (distSpec lines1 lines2 i j) := by
  obtain ⟨d, hd, hP⟩ := foldlM_range_inv (fillRow lines1 lines2)
    (fun i d => RowsFilled lines1 lines2 i d) (lines1.length + 1)
    (List.replicate (lines1.length + 1) [])
    ⟨by simp, fun i' j hi' _ => absurd hi' (Nat.not_lt_zero _)⟩
    (fun i d hi hP => fillRow_step lines1 lines2 i d (by omega) hP)
  exact ⟨d, hd, fun i j hi hj => hP.2 i j (by omega) hj⟩

/-! ## The recurrence and common subsequences -/

section Recurrence

variable {α : Type} [DecidableEq α]

theorem editDist_cons_cons (x y : α) (xs ys : List α) :
    editDist (x :: xs) (y :: ys) =
      (let cost := editDist (x :: xs) ys + 1
       let cost := if cost > editDist xs (y :: ys) + 1 then editDist xs (y :: ys) + 1 else cost
       if x = y then (if cost > editDist xs ys then editDist xs ys else cost) else cost) := by
  rw [editDist]

theorem editDist_le_insert (x y : α) (xs ys : List α) :
    editDist (x :: xs) (y :: ys) ≤ editDist (x :: xs) ys + 1 := by
  rw [editDist_cons_cons]
  simp only []
  split_ifs <;> omega

theorem editDist_le_delete (x y : α) (xs ys : List α) :
    editDist (x :: xs) (y :: ys) ≤ editDist xs (y :: ys) + 1 := by
  rw [editDist_cons_cons]
  simp only []
  split_ifs <;> omega

theorem editDist_le_keep (x : α) (xs ys : List α) :
    editDist (x :: xs) (x :: ys) ≤ editDist xs ys := by
  rw [editDist_cons_cons]
  simp only []
  split_ifs <;> omega

/-- The recurrence takes one of its three candidates. -/
theorem editDist_cases (x y : α) (xs ys : List α) :
    editDist (x :: xs) (y :: ys) = editDist (x :: xs) ys + 1 ∨
    editDist (x :: xs) (y :: ys) = editDist xs (y :: ys) + 1 ∨
    (x = y ∧ editDist (x :: xs) (y :: ys) = editDist xs ys) := by
  rw [editDist_cons_cons]
  simp only []
  by_cases hxy : x = y
  · simp only [hxy, if_true, true_and]
    split_ifs <;> omega
  · simp only [hxy, if_false, false_and, or_false]
    split_ifs <;> omega

/-- Minimality: no common subsequence leaves fewer lines to change than the recurrence
counts. -/
theorem editDist_add_common_le (xs : List α) :
    ∀ (ys l : List α), l.Sublist xs → l.Sublist ys →
      editDist xs ys + 2 * l.length ≤ xs.length + ys.length := by
  induction xs with
  | nil =>
    intro ys l h1 _
    rw [List.sublist_nil.mp h1, editDist_nil_left]
    simp
  | cons x xs ihx =>
    intro ys
    induction ys with
    | nil =>
      intro l _ h2
      rw [List.sublist_nil.mp h2, editDist_nil_right]
      simp
    | cons y ys ihy =>
      intro l h1 h2
      cases h1 with
      | cons _ h1' =>
        have := ihx (y :: ys) l h1' h2
        have := editDist_le_delete x y xs ys
        simp only [List.length_cons] at *
        omega
      | cons₂ _ h1' =>
        cases h2 with
        | cons _ h2' =>
          have := ihy _ (List.Sublist.cons₂ x h1') h2'
          have := editDist_le_insert x y xs ys
          simp only [List.length_cons] at *
          omega
        | cons₂ _ h2' =>
          have := ihx ys _ h1' h2'
          have := editDist_le_keep x xs ys
          simp only [List.length_cons] at *
          omega

/-- The recurrence is attained by a common subsequence. -/
theorem editDist_attained (xs : List α) :
    ∀ ys : List α, ∃ l : List α, l.Sublist xs ∧ l.Sublist ys ∧
      editDist xs ys + 2 * l.length = xs.length + ys.length := by
  induction xs with
  | nil =>
    intro ys
    exact ⟨[], List.Sublist.refl _, List.nil_sublist _, by simp [editDist_nil_left]⟩
  | cons x xs ihx =>
    intro ys
    induction ys with
    | nil => exact ⟨[], List.nil_sublist _, List.Sublist.refl _, by simp [editDist_nil_right]⟩
    | cons y ys ihy =>
      rcases editDist_cases x y xs ys with h | h | ⟨hxy, h⟩
      · obtain ⟨l, h1, h2, h3⟩ := ihy
        refine ⟨l, h1, List.Sublist.cons y h2, ?_⟩
        simp only [List.length_cons] at *
        omega
      · obtain ⟨l, h1, h2, h3⟩ := ihx (y :: ys)
        refine ⟨l, List.Sublist.cons x h1, h2, ?_⟩
        simp only [List.length_cons] at *
        omega
      · obtain ⟨l, h1, h2, h3⟩ := ihx ys
        subst hxy
        refine ⟨x :: l, List.Sublist.cons₂ x h1, List.Sublist.cons₂ x h2, ?_⟩
        simp only [List.length_cons] at *
        omega

/-- Dropping the first line of the first sequence lowers the count by at most one. -/
theorem editDist_le_cons_left (a : α) (xs ys : List α) :
    editDist xs ys ≤ editDist (a :: xs) ys + 1 := by
  obtain ⟨l, h1, h2, h3⟩ := editDist_attained (a :: xs) ys
  cases h1 with
  | cons _ h1' =>
    have := editDist_add_common_le xs ys l h1' h2
    simp only [List.length_cons] at *
    omega
  | cons₂ _ h1' =>
    have := editDist_add_common_le xs ys _ h1' ((List.sublist_cons_self a _).trans h2)
    simp only [List.length_cons] at *
    omega

/-- Dropping the first line of the second sequence lowers the count by at most one. -/
theorem editDist_le_cons_right (a : α) (xs ys : List α) :
    editDist xs ys ≤ editDist xs (a :: ys) + 1 := by
  obtain ⟨l, h1, h2, h3⟩ := editDist_attained xs (a :: ys)
  cases h2 with
  | cons _ h2' =>
    have := editDist_add_common_le xs ys l h1 h2'
    simp only [List.length_cons] at *
    omega
  | cons₂ _ h2' =>
    have := editDist_add_common_le xs ys _ ((List.sublist_cons_self a _).trans h1) h2'
    simp only [List.length_cons] at *
    omega

/-- Equal first lines cost nothing (the match candidate is the minimum). -/
theorem editDist_cons_same (x : α) (xs ys : List α) :
    editDist (x :: xs) (x :: ys) = editDist xs ys := by
  have h1 := editDist_le_cons_left x xs ys
  have h2 := editDist_le_cons_right x xs ys
  rw [editDist_cons_cons]
  simp only [if_true]
  split_ifs <;> omega

theorem editDist_self (xs : List α) : editDist xs xs = 0 := by
  induction xs with
  | nil => exact editDist_nil_left []
  | cons x xs ih => rw [editDist_cons_same, ih]

theorem length_le_editDist_add (xs ys : List α) :
    xs.length ≤ editDist xs ys + ys.length := by
  obtain ⟨l, _, h2, h3⟩ := editDist_attained xs ys
  have := h2.length_le
  omega

theorem length_le_editDist_add_left (xs ys : List α) :
    ys.length ≤ editDist xs ys + xs.length := by
  obtain ⟨l, h1, _, h3⟩ := editDist_attained xs ys
  have := h1.length_le
  omega

/-- Sequences without a common line: every line is changed. -/
theorem editDist_disjoint (xs ys : List α) (h : ∀ a ∈ xs, a ∉ ys) :
    editDist xs ys = xs.length + ys.length := by
  obtain ⟨l, h1, h2, h3⟩ := editDist_attained xs ys
  cases l with
  | nil => simpa using h3
  | cons a l => exact absurd (h2.subset (List.mem_cons_self a l)) (h a (h1.subset (List.mem_cons_self a l)))

end Recurrence

/-! ## The traceback -/

theorem drop_line (ls : List GoString) (i : Nat) (x : GoString) (hi : i + 1 ≤ ls.length)
    (hx : ls[ls.length - (i + 1)]? = some x) :
    ls.drop (ls.length - (i + 1)) = x :: ls.drop (ls.length - i) := by
  obtain ⟨hx1, hx2⟩ := List.getElem?_eq_some.mp hx
  have e : ls.length - i = ls.length - (i + 1) + 1 := by omega
  rw [e, List.drop_eq_getElem_cons hx1, hx2]

theorem script_nil_nil : script [] [] = [] := by
  rw [script]

theorem script_nil_cons (y : GoString) (ys : List GoString) :
    script [] (y :: ys) = EditOp.Insert y :: script [] ys := by
  rw [script]

theorem script_cons_nil (x : GoString) (xs : List GoString) :
    script (x :: xs) [] = EditOp.Delete x :: script xs [] := by
  rw [script]

theorem script_cons_cons (x y : GoString) (xs ys : List GoString) :
    script (x :: xs) (y :: ys) =
      if editDist (x :: xs) (y :: ys) = editDist xs ys ∧ x = y then
        EditOp.Keep x :: script xs ys
      else if editDist (x :: xs) (y :: ys) = editDist xs (y :: ys) + 1 then
        EditOp.Delete x :: script xs (y :: ys)
      else EditOp.Insert y :: script (x :: xs) ys := by
  rw [script]

/-- The traceback loop returns, and writes the rendering of `script`. -/
theorem traceLoop_spec (c : config) (lines1 lines2 : List GoString) (dist : List (List Nat))
    (hd : ∀ i j, i ≤ lines1.length → j ≤ lines2.length →
      getCell dist i j = some (distSpec lines1 lines2 i j)) :
    ∀ (fuel i j : Nat) (buf : GoString), i ≤ lines1.length → j ≤ lines2.length →
      i + j ≤ fuel →
      traceLoop c lines1 lines2 dist fuel i j buf =
        some (buf ++ render c (lines1.length - i) (lines2.length - j)
          (script (lines1.drop (lines1.length - i)) (lines2.drop (lines2.length - j)))) := by
  intro fuel
  induction fuel with
  | zero =>
    intro i j buf hi hj hf
    have hi0 : i = 0 := by omega
    have hj0 : j = 0 := by omega
    subst hi0 hj0
    rw [traceLoop]
    simp [script_nil_nil, render]
  | succ fuel ih =>
    intro i j buf hi hj hf
    rcases i with _ | i
    · rcases j with _ | j
      · rw [traceLoop]
        simp [script_nil_nil, render]
      · -- only lines of the second text remain
        obtain ⟨y, hy⟩ := getElem?_line lines2 (j + 1) (by omega) hj
        rw [traceLoop, if_pos (by omega)]
        simp only [traceStep, hd 0 (j + 1) hi hj, matchCond, deleteCond]
        simp only [Nat.lt_irrefl, false_and, if_false, hy]
        rw [Nat.add_sub_cancel, ih 0 j _ hi (by omega) (by omega)]
        rw [drop_line lines2 j y hj hy, Nat.sub_zero, List.drop_length, script_nil_cons, render]
        have e : lines2.length - (j + 1) + 1 = lines2.length - j := by omega
        rw [e]
        cases c.suppressCommon <;> simp
    · obtain ⟨x, hx⟩ := getElem?_line lines1 (i + 1) (by omega) hi
      rcases j with _ | j
      · -- only lines of the first text remain
        rw [traceLoop, if_pos (by omega)]
        simp only [traceStep, hd (i + 1) 0 hi hj, matchCond, deleteCond]
        simp only [Nat.lt_irrefl, and_false, if_false, Nat.add_sub_cancel, hd i 0 (by omega) hj,
          Nat.succ_pos, if_true, hx]
        rw [distSpec_zero_right _ _ _ hi, distSpec_zero_right _ _ _ (by omega)]
        simp only [decide_True]
        rw [ih i 0 _ (by omega) hj (by omega)]
        rw [drop_line lines1 i x hi hx, Nat.sub_zero, List.drop_length, script_cons_nil, render]
        have e : lines1.length - (i + 1) + 1 = lines1.length - i := by omega
        rw [e]
        cases c.suppressCommon <;> simp
      · obtain ⟨y, hy⟩ := getElem?_line lines2 (j + 1) (by omega) hj
        have hi' : i ≤ lines1.length := by omega
        have hj' : j ≤ lines2.length := by omega
        have e1 : lines1.length - (i + 1) + 1 = lines1.length - i := by omega
        have e2 : lines2.length - (j + 1) + 1 = lines2.length - j := by omega
        have d11 : distSpec lines1 lines2 (i + 1) (j + 1) =
            editDist (x :: lines1.drop (lines1.length - i))
              (y :: lines2.drop (lines2.length - j)) := by
          unfold distSpec
          rw [drop_line lines1 i x hi hx, drop_line lines2 j y hj hy]
        have d01 : distSpec lines1 lines2 i (j + 1) =
            editDist (lines1.drop (lines1.length - i))
              (y :: lines2.drop (lines2.length - j)) := by
          unfold distSpec
          rw [drop_line lines2 j y hj hy]
        rw [traceLoop, if_pos (by omega)]
        simp only [traceStep, hd (i + 1) (j + 1) hi hj, matchCond, deleteCond]
        simp only [Nat.succ_pos, and_self, if_true, Nat.add_sub_cancel, hd i j hi' hj',
          hd i (j + 1) hi' hj, hx, hy]
        rw [drop_line lines1 i x hi hx, drop_line lines2 j y hj hy, script_cons_cons,
          ← d11, ← d01]
        have d00 : editDist (lines1.drop (lines1.length - i))
            (lines2.drop (lines2.length - j)) = distSpec lines1 lines2 i j := rfl
        rw [d00]
        by_cases hdel : distSpec lines1 lines2 (i + 1) (j + 1)
            = distSpec lines1 lines2 i (j + 1) + 1
        · have hdel' := eq_true hdel
          by_cases hc : distSpec lines1 lines2 (i + 1) (j + 1) = distSpec lines1 lines2 i j
          · have hc' := eq_true hc
            by_cases hxy : x = y
            · have hxy' := eq_true hxy
              simp only [hc', hxy', if_true, and_self, decide_True]
              cases hs : c.suppressCommon
              · simp only [Bool.false_eq_true, not_false_eq_true, if_true]
                rw [ih i j _ hi' hj' (by omega), render, e1, e2, hs]
                simp
              · simp only [not_true_eq_false, if_false]
                rw [ih i j _ hi' hj' (by omega), render, e1, e2, hs]
                simp
            · have hxy' := eq_false hxy
              simp only [hc', hxy', hdel', if_true, and_false, if_false, decide_True, decide_False]
              rw [ih i (j + 1) _ hi' hj (by omega), render, e1]
              rw [drop_line lines2 j y hj hy]
              cases c.suppressCommon <;> simp
          · have hc' := eq_false hc
            simp only [hc', hdel', if_true, false_and, if_false, decide_True]
            rw [ih i (j + 1) _ hi' hj (by omega), render, e1]
            rw [drop_line lines2 j y hj hy]
            cases c.suppressCommon <;> simp
        · have hdel' := eq_false hdel
          by_cases hc : distSpec lines1 lines2 (i + 1) (j + 1) = distSpec lines1 lines2 i j
          · have hc' := eq_true hc
            by_cases hxy : x = y
            · have hxy' := eq_true hxy
              simp only [hc', hxy', if_true, and_self, decide_True]
              cases hs : c.suppressCommon
              · simp only [Bool.false_eq_true, not_false_eq_true, if_true]
                rw [ih i j _ hi' hj' (by omega), render, e1, e2, hs]
                simp
              · simp only [not_true_eq_false, if_false]
                rw [ih i j _ hi' hj' (by omega), render, e1, e2, hs]
                simp
            · have hxy' := eq_false hxy
              simp only [hc', hxy', hdel', if_true, and_false, if_false, decide_False]
              rw [ih (i + 1) j _ hi hj' (by omega), render, e2]
              rw [drop_line lines1 i x hi hx]
              cases c.suppressCommon <;> simp
          · have hc' := eq_false hc
            simp only [hc', hdel', false_and, if_false, decide_False]
            rw [ih (i + 1) j _ hi hj' (by omega), render, e2]
            rw [drop_line lines1 i x hi hx]
            cases c.suppressCommon <;> simp

/-- The function `Format` returns for all inputs: it writes the rendering of the traceback script of
the two line sequences. -/
theorem Format_eq (text1 text2 : GoString) (options : List option) :
    Format text1 text2 options =
      some (render (options.foldl (fun c opt => opt c) {}) 0 0
        (script (lines text1) (lines text2))) := by
  obtain ⟨dist, hb, hd⟩ := buildDist_spec (lines text1) (lines text2)
  unfold Format
  simp only [splitLines_eq, hb]
  rw [traceLoop_spec _ _ _ dist hd _ _ _ [] (Nat.le_refl _) (Nat.le_refl _) (Nat.le_refl _)]
  simp

theorem Format_plain (text1 text2 : GoString) :
    Format text1 text2 [] =
      some (render { suppressCommon := false } 0 0 (script (lines text1) (lines text2))) :=
  Format_eq text1 text2 []

theorem Format_suppress (text1 text2 : GoString) :
    Format text1 text2 [OptSuppressCommon] =
      some (render { suppressCommon := true } 0 0 (script (lines text1) (lines text2))) :=
  Format_eq text1 text2 [OptSuppressCommon]

/-! ## The script of the traceback -/

theorem script_source_target (xs : List GoString) :
    ∀ ys, scriptSource (script xs ys) = xs ∧ scriptTarget (script xs ys) = ys := by
  induction xs with
  | nil =>
    intro ys
    induction ys with
    | nil => simp [script_nil_nil, scriptSource, scriptTarget]
    | cons y ys ih => simp [script_nil_cons, scriptSource, scriptTarget, ih.1, ih.2]
  | cons x xs ihx =>
    intro ys
    induction ys with
    | nil => simp [script_cons_nil, scriptSource, scriptTarget, (ihx []).1, (ihx []).2]
    | cons y ys ihy =>
      rw [script_cons_cons]
      split_ifs with h1 h2
      · simp [scriptSource, scriptTarget, (ihx ys).1, (ihx ys).2, h1.2.symm]
      · simp [scriptSource, scriptTarget, (ihx (y :: ys)).1, (ihx (y :: ys)).2]
      · simp [scriptSource, scriptTarget, ihy.1, ihy.2]

/-- The traceback emits as many Delete and Insert operations as the table counts. -/
theorem scriptCost_script (xs : List GoString) :
    ∀ ys, scriptCost (script xs ys) = editDist xs ys := by
  induction xs with
  | nil =>
    intro ys
    induction ys with
    | nil => simp [script_nil_nil, scriptCost, editDist_nil_left]
    | cons y ys ih =>
      rw [script_nil_cons, scriptCost, ih]
      simp [editDist_nil_left]
  | cons x xs ihx =>
    intro ys
    induction ys with
    | nil =>
      rw [script_cons_nil, scriptCost, ihx []]
      simp [editDist_nil_right]
    | cons y ys ihy =>
      rw [script_cons_cons]
      split_ifs with h1 h2
      · rw [scriptCost, ihx ys, h1.1]
      · rw [scriptCost, ihx (y :: ys), h2]
      · rw [scriptCost, ihy]
        rcases editDist_cases x y xs ys with h | h | ⟨hxy, h⟩
        · exact h.symm
        · exact absurd h h2
        · exact absurd ⟨h, hxy⟩ h1

theorem scriptKept_sublist (ops : List EditOp) :
    (scriptKept ops).Sublist (scriptSource ops) ∧ (scriptKept ops).Sublist (scriptTarget ops) := by
  induction ops with
  | nil => exact ⟨List.Sublist.refl _, List.Sublist.refl _⟩
  | cons op ops ih =>
    cases op with
    | Keep l => exact ⟨List.Sublist.cons₂ l ih.1, List.Sublist.cons₂ l ih.2⟩
    | Delete l => exact ⟨List.Sublist.cons l ih.1, ih.2⟩
    | Insert l => exact ⟨ih.1, List.Sublist.cons l ih.2⟩

theorem scriptCost_add_kept (ops : List EditOp) :
    scriptCost ops + 2 * (scriptKept ops).length =
      (scriptSource ops).length + (scriptTarget ops).length := by
  induction ops with
  | nil => rfl
  | cons op ops ih =>
    cases op <;> simp only [scriptCost, scriptKept, scriptSource, scriptTarget, List.length_cons]
      <;> omega

/-- No script that turns `xs` into `ys` has fewer Delete and Insert operations than the
script of the traceback. -/
theorem script_minimal (xs ys : List GoString) (ops : List EditOp)
    (h1 : scriptSource ops = xs) (h2 : scriptTarget ops = ys) :
    scriptCost (script xs ys) ≤ scriptCost ops := by
  have hk := scriptKept_sublist ops
  have hc := scriptCost_add_kept ops
  rw [h1, h2] at hk hc
  have := editDist_add_common_le xs ys _ hk.1 hk.2
  rw [scriptCost_script]
  omega

/-! ## The rendering -/

theorem render_plain (ops : List EditOp) : ∀ k1 k2 : Nat,
    render { suppressCommon := false } k1 k2 ops = joinLines (ops.map opLine) := by
  induction ops with
  | nil => intro k1 k2; rfl
  | cons op ops ih =>
    intro k1 k2
    cases op <;> simp [render, joinLines, opLine, ih]

theorem opLine_no_newline (ops : List EditOp)
    (h1 : ∀ l ∈ scriptSource ops, '\n' ∉ l) (h2 : ∀ l ∈ scriptTarget ops, '\n' ∉ l) :
    ∀ l ∈ ops.map opLine, '\n' ∉ l := by
  induction ops with
  | nil => simp
  | cons op ops ih =>
    intro l hl
    rw [List.map_cons] at hl
    cases op with
    | Keep a =>
      simp only [scriptSource, scriptTarget] at h1 h2
      rcases List.mem_cons.mp hl with e | e
      · subst e
        have := h1 a (List.mem_cons_self _ _)
        simpa [opLine] using this
      · exact ih (fun l hl => h1 l (List.mem_cons_of_mem _ hl))
          (fun l hl => h2 l (List.mem_cons_of_mem _ hl)) l e
    | Delete a =>
      simp only [scriptSource, scriptTarget] at h1 h2
      rcases List.mem_cons.mp hl with e | e
      · subst e
        have := h1 a (List.mem_cons_self _ _)
        simpa [opLine] using this
      · exact ih (fun l hl => h1 l (List.mem_cons_of_mem _ hl)) h2 l e
    | Insert a =>
      simp only [scriptSource, scriptTarget] at h1 h2
      rcases List.mem_cons.mp hl with e | e
      · subst e
        have := h2 a (List.mem_cons_self _ _)
        simpa [opLine] using this
      · exact ih h1 (fun l hl => h2 l (List.mem_cons_of_mem _ hl)) l e

/-- The lines of the unsuppressed output are the lines of the operations. -/
theorem outputLines_render (text1 text2 : GoString) :
    outputLines (render { suppressCommon := false } 0 0 (script (lines text1) (lines text2)))
      = (script (lines text1) (lines text2)).map opLine := by
  rw [render_plain]
  apply outputLines_joinLines
  apply opLine_no_newline
  · rw [(script_source_target _ _).1]
    exact lines_no_newline text1
  · rw [(script_source_target _ _).2]
    exact lines_no_newline text2

theorem changed_opLines (ops : List EditOp) :
    ((ops.map opLine).filter
      (fun l => decide (l.head? = some '-') || decide (l.head? = some '+'))).length
      = scriptCost ops := by
  induction ops with
  | nil => rfl
  | cons op ops ih =>
    cases op <;> simp [opLine, scriptCost, List.filter_cons, ih]

theorem dropPlus_opLines (ops : List EditOp) :
    (((ops.map opLine).filter (fun l => ! decide (l.head? = some '+'))).map List.tail)
      = scriptSource ops := by
  induction ops with
  | nil => rfl
  | cons op ops ih =>
    cases op <;> simp [opLine, scriptSource, List.filter_cons, ih]

theorem dropMinus_opLines (ops : List EditOp) :
    (((ops.map opLine).filter (fun l => ! decide (l.head? = some '-'))).map List.tail)
      = scriptTarget ops := by
  induction ops with
  | nil => rfl
  | cons op ops ih =>
    cases op <;> simp [opLine, scriptTarget, List.filter_cons, ih]

theorem render_suppress (ops : List EditOp) : ∀ k1 k2 : Nat,
    render { suppressCommon := true } k1 k2 ops = suppressFrom k1 k2 (ops.map opLine) := by
  induction ops with
  | nil => intro k1 k2; rfl
  | cons op ops ih =>
    intro k1 k2
    cases op <;> simp [render, suppressFrom, opLine, ih]

theorem changedCount_render (text1 text2 : GoString) :
    changedCount (render { suppressCommon := false } 0 0 (script (lines text1) (lines text2)))
      = editDist (lines text1) (lines text2) := by
  unfold changedCount
  rw [outputLines_render, changed_opLines, scriptCost_script]

theorem script_cons_same (x : GoString) (xs ys : List GoString) :
    script (x :: xs) (x :: ys) = EditOp.Keep x :: script xs ys := by
  rw [script_cons_cons, if_pos ⟨editDist_cons_same x xs ys, rfl⟩]

theorem script_self (xs : List GoString) : script xs xs = xs.map EditOp.Keep := by
  induction xs with
  | nil => exact script_nil_nil
  | cons x xs ih => rw [script_cons_same, ih, List.map_cons]

theorem render_plain_keep (xs : List GoString) (k1 k2 : Nat) :
    render { suppressCommon := false } k1 k2 (xs.map EditOp.Keep) = markedText ' ' xs := by
  rw [render_plain, List.map_map]
  rfl

theorem render_suppress_keep (xs : List GoString) : ∀ k1 k2 : Nat,
    render { suppressCommon := true } k1 k2 (xs.map EditOp.Keep) = [] := by
  induction xs with
  | nil => intro k1 k2; rfl
  | cons x xs ih => intro k1 k2; simp [render, ih]

theorem joinLines_append (xs ys : List GoString) :
    joinLines (xs ++ ys) = joinLines xs ++ joinLines ys := by
  induction xs with
  | nil => rfl
  | cons x xs ih => simp [joinLines, ih]

theorem script_nil_left (ys : List GoString) : script [] ys = ys.map EditOp.Insert := by
  induction ys with
  | nil => exact script_nil_nil
  | cons y ys ih => rw [script_nil_cons, ih, List.map_cons]

/-- Sequences without a common line: all deletions, then all insertions. -/
theorem script_disjoint (xs : List GoString) :
    ∀ ys : List GoString, (∀ a ∈ xs, a ∉ ys) →
      script xs ys = xs.map EditOp.Delete ++ ys.map EditOp.Insert := by
  induction xs with
  | nil =>
    intro ys _
    rw [script_nil_left, List.map_nil, List.nil_append]
  | cons x xs ih =>
    intro ys h
    have h' : ∀ a ∈ xs, a ∉ ys := fun a ha => h a (List.mem_cons_of_mem _ ha)
    cases ys with
    | nil => rw [script_cons_nil, ih [] h', List.map_cons, List.cons_append]
    | cons y ys =>
      have hxy : x ≠ y := fun e =>
        h x (List.mem_cons_self _ _) (by rw [e]; exact List.mem_cons_self _ _)
      rw [script_cons_cons, if_neg (fun hh => hxy hh.2), if_pos, ih _ h']
      · rfl
      rw [editDist_disjoint _ _ h, editDist_disjoint _ _ h']
      simp only [List.length_cons]
      omega

theorem render_plain_delete_insert (xs ys : List GoString) (k1 k2 : Nat) :
    render { suppressCommon := false } k1 k2 (xs.map EditOp.Delete ++ ys.map EditOp.Insert)
      = markedText '-' xs ++ markedText '+' ys := by
  rw [render_plain, List.map_append, joinLines_append, List.map_map, List.map_map]
  rfl

theorem render_suppress_insert (ys : List GoString) : ∀ k1 k2 : Nat,
    render { suppressCommon := true } k1 k2 (ys.map EditOp.Insert) = numberedText '+' k2 ys := by
  induction ys with
  | nil => intro k1 k2; rfl
  | cons y ys ih => intro k1 k2; simp [render, numberedText, ih]

theorem render_suppress_delete_insert (xs ys : List GoString) : ∀ k1 k2 : Nat,
    render { suppressCommon := true } k1 k2 (xs.map EditOp.Delete ++ ys.map EditOp.Insert)
      = numberedText '-' k1 xs ++ numberedText '+' k2 ys := by
  induction xs with
  | nil =>
    intro k1 k2
    simp [numberedText, render_suppress_insert]
  | cons x xs ih => intro k1 k2; simp [render, numberedText, ih]

/-- A common run of first lines is kept. -/
theorem script_append_same (zs xs ys : List GoString) :
    script (zs ++ xs) (zs ++ ys) = zs.map EditOp.Keep ++ script xs ys := by
  induction zs with
  | nil => rfl
  | cons z zs ih => rw [List.cons_append, List.cons_append, script_cons_same, ih]; rfl

theorem render_suppress_keep_append (zs : List GoString) (ops : List EditOp) :
    ∀ k1 k2 : Nat,
      render { suppressCommon := true } k1 k2 (zs.map EditOp.Keep ++ ops)
        = render { suppressCommon := true } (k1 + zs.length) (k2 + zs.length) ops := by
  induction zs with
  | nil => intro k1 k2; rfl
  | cons z zs ih =>
    intro k1 k2
    have e1 : k1 + (zs.length + 1) = k1 + 1 + zs.length := by omega
    have e2 : k2 + (zs.length + 1) = k2 + 1 + zs.length := by omega
    rw [List.map_cons, List.cons_append, render, ih, List.length_cons, e1, e2]
    rfl

/-- A line in front of a sequence that does not start with it is deleted. -/
theorem script_delete_first (c : GoString) (ys : List GoString) (h : ys.head? ≠ some c) :
    script (c :: ys) ys = EditOp.Delete c :: ys.map EditOp.Keep := by
  cases ys with
  | nil => rw [script_cons_nil, script_nil_nil]; rfl
  | cons y ys =>
    have hcy : c ≠ y := fun e => h (by rw [e]; rfl)
    have h1 := editDist_le_delete c y (y :: ys) ys
    have h2 := length_le_editDist_add (c :: y :: ys) (y :: ys)
    rw [editDist_self] at h1
    simp only [List.length_cons] at h2
    rw [script_cons_cons, if_neg (fun hh => hcy hh.2), if_pos, script_self]
    rw [editDist_self]
    omega

/-- A line missing in front of a sequence that does not start with it is inserted. -/
theorem script_insert_first (d : GoString) (ys : List GoString) (h : ys.head? ≠ some d) :
    script ys (d :: ys) = EditOp.Insert d :: ys.map EditOp.Keep := by
  cases ys with
  | nil => rw [script_nil_cons, script_nil_nil]; rfl
  | cons y ys =>
    have hyd : y ≠ d := fun e => h (by rw [e]; rfl)
    have h1 := editDist_le_insert y d ys (y :: ys)
    have h2 := length_le_editDist_add_left ys (d :: y :: ys)
    rw [editDist_self] at h1
    simp only [List.length_cons] at h2
    rw [script_cons_cons, if_neg (fun hh => hyd hh.2), if_neg, script_self]
    omega

/-! ## The rows of `formatTests` -/

/-- The embedding passes the six rows of `formatTests` (diff_test.go:18-23), without
options and with `OptSuppressCommon`. -/
theorem formatTests_pass :
    Format "a\nb\nc\n".toList "a\nb\nd\ne\nf\n".toList [] = some " a\n b\n-c\n+d\n+e\n+f\n".toList ∧
    Format "a\nb\nc\n".toList "a\nb\nd\ne\nf\n".toList [OptSuppressCommon]
      = some "3-c\n3+d\n4+e\n5+f\n".toList ∧
    Format "".toList "a\nb\nc\n".toList [] = some "+a\n+b\n+c\n".toList ∧
    Format "".toList "a\nb\nc\n".toList [OptSuppressCommon] = some "1+a\n2+b\n3+c\n".toList ∧
    Format "a\nb\nc\n".toList "".toList [] = some "-a\n-b\n-c\n".toList ∧
    Format "a\nb\nc\n".toList "".toList [OptSuppressCommon] = some "1-a\n2-b\n3-c\n".toList ∧
    Format "a\nb\nc\n".toList "d\ne\nf\n".toList [] = some "-a\n-b\n-c\n+d\n+e\n+f\n".toList ∧
    Format "a\nb\nc\n".toList "d\ne\nf\n".toList [OptSuppressCommon]
      = some "1-a\n2-b\n3-c\n1+d\n2+e\n3+f\n".toList ∧
    Format "a\nb\nc\nd\ne\nf\n".toList "a\nb\nd\ne\nf\n".toList []
      = some " a\n b\n-c\n d\n e\n f\n".toList ∧
    Format "a\nb\nc\nd\ne\nf\n".toList "a\nb\nd\ne\nf\n".toList [OptSuppressCommon]
      = some "3-c\n".toList ∧
    Format "a\nb\nc\ne\nf\n".toList "a\nb\nc\nd\ne\nf\n".toList []
      = some " a\n b\n c\n+d\n e\n f\n".toList ∧
    Format "a\nb\nc\ne\nf\n".toList "a\nb\nc\nd\ne\nf\n".toList [OptSuppressCommon]
      = some "4+d\n".toList := by
  refine ⟨?_, ?_, ?_, ?_, ?_, ?_, ?_, ?_, ?_, ?_, ?_, ?_⟩ <;> decide

/-! ## The properties of the specification -/

/-- Minimality with respect to the line sequences the splitter computes: `Format`
returns, and the number of `-` and `+` lines of its output is `m + n - 2 * LCS`, where `m`
and `n` are the lengths of the two computed sequences and `LCS` the length of a longest
common subsequence of the two; and no script of Keep, Delete and Insert operations that
turns the first computed sequence into the second has fewer Delete and Insert
operations. The computed sequences lack an unterminated last line. -/
theorem Format_minimal (text1 text2 : GoString) :
    ∃ seq1 seq2 out lcs,
      splitLines text1 = some seq1 ∧ splitLines text2 = some seq2 ∧
      Format text1 text2 [] = some out ∧
      List.Sublist lcs seq1 ∧ List.Sublist lcs seq2 ∧
      (∀ l : List GoString, List.Sublist l seq1 → List.Sublist l seq2 →
        l.length ≤ lcs.length) ∧
      changedCount out = seq1.length + seq2.length - 2 * lcs.length ∧
      (∀ ops : List EditOp, scriptSource ops = seq1 → scriptTarget ops = seq2 →
        changedCount out ≤ scriptCost ops) := by
  have hk := scriptKept_sublist (script (lines text1) (lines text2))
  have hc := scriptCost_add_kept (script (lines text1) (lines text2))
  rw [(script_source_target _ _).1, (script_source_target _ _).2] at hk hc
  rw [scriptCost_script] at hc
  refine ⟨lines text1, lines text2, _, scriptKept (script (lines text1) (lines text2)),
    splitLines_eq text1, splitLines_eq text2, Format_plain text1 text2, hk.1, hk.2, ?_, ?_, ?_⟩
  · intro l h1 h2
    have := editDist_add_common_le _ _ l h1 h2
    omega
  · rw [changedCount_render]
    omega
  · intro ops h1 h2
    rw [changedCount_render, ← scriptCost_script]
    exact script_minimal _ _ ops h1 h2

/-- Complementarity with respect to the line sequences the splitter computes: the lines
of the output not starting with `+`, without their first character, are the first
sequence, and those not starting with `-` are the second. -/
theorem Format_complementary (text1 text2 : GoString) :
    ∃ seq1 seq2 out,
      splitLines text1 = some seq1 ∧ splitLines text2 = some seq2 ∧
      Format text1 text2 [] = some out ∧
      dropMarked '+' out = seq1 ∧ dropMarked '-' out = seq2 := by
  refine ⟨lines text1, lines text2, _, splitLines_eq text1, splitLines_eq text2,
    Format_plain text1 text2, ?_, ?_⟩
  · unfold dropMarked
    rw [outputLines_render, dropPlus_opLines, (script_source_target _ _).1]
  · unfold dropMarked
    rw [outputLines_render, dropMinus_opLines, (script_source_target _ _).2]

/-- Identity with respect to the line sequence the splitter computes: for every text `T`,
`Format(T, T)` without options is every line of the computed sequence of `T` with a space
in front and a newline behind, it has no line starting with `-` or `+`, and with
`OptSuppressCommon` it is the empty string. The computed sequence lacks an unterminated
last line. -/
theorem Format_identity (text : GoString) :
    ∃ seq,
      splitLines text = some seq ∧
      Format text text [] = some (markedText ' ' seq) ∧
      changedCount (markedText ' ' seq) = 0 ∧
      Format text text [OptSuppressCommon] = some [] := by
  refine ⟨lines text, splitLines_eq text, ?_, ?_, ?_⟩
  · rw [Format_plain, script_self, render_plain_keep]
  · have h := changedCount_render text text
    rw [script_self, render_plain_keep, editDist_self] at h
    exact h
  · rw [Format_suppress, script_self, render_suppress_keep]

/-- C4 (suppression consistency): both calls return, and the output with
`OptSuppressCommon` is computed from the lines of the output without options, in order:
a line starting with a space gives nothing, a line `-L` gives the decimal number of
space and `-` lines up to and including it followed by `-L` and a newline, a line `+L`
gives the decimal number of space and `+` lines up to and including it followed by `+L`
and a newline. -/
theorem Format_suppression_consistent (text1 text2 : GoString) :
    ∃ U S,
      Format text1 text2 [] = some U ∧
      Format text1 text2 [OptSuppressCommon] = some S ∧
      S = suppressFrom 0 0 (outputLines U) := by
  refine ⟨_, _, Format_plain text1 text2, Format_suppress text1 text2, ?_⟩
  rw [outputLines_render, render_suppress]

/-- Length bound with respect to the line sequences the splitter computes: the number of
`-` and `+` lines of `Format(text1, text2)` is at most `m + n`, the sum of the lengths of
the two computed sequences, and it is `m + n` if and only if no line of the first computed
sequence is equal to a line of the second. The computed sequences lack an unterminated
last line. -/
theorem Format_length_bound (text1 text2 : GoString) :
    ∃ seq1 seq2 out,
      splitLines text1 = some seq1 ∧ splitLines text2 = some seq2 ∧
      Format text1 text2 [] = some out ∧
      changedCount out ≤ seq1.length + seq2.length ∧
      (changedCount out = seq1.length + seq2.length ↔ ∀ a ∈ seq1, a ∉ seq2) := by
  refine ⟨lines text1, lines text2, _, splitLines_eq text1, splitLines_eq text2,
    Format_plain text1 text2, ?_, ?_⟩
  · rw [changedCount_render]
    obtain ⟨l, _, _, h⟩ := editDist_attained (lines text1) (lines text2)
    omega
  · rw [changedCount_render]
    constructor
    · intro h a h1 h2
      have := editDist_add_common_le (lines text1) (lines text2) [a]
        (List.singleton_sublist.mpr h1) (List.singleton_sublist.mpr h2)
      simp only [List.length_singleton] at this
      omega
    · exact editDist_disjoint _ _

/-- The run of `Format` on `"a\nb"` and `""` (C2): the splitter drops the unterminated
last line `b` of the first text instead of marking it, so the output is `-a` alone and
the lines reconstructed from it are `a` alone. -/
theorem Format_unterminated_reconstruct :
    splitLines "a\nb".toList = some ["a".toList] ∧
    Format "a\nb".toList [] [] = some "-a\n".toList ∧
    dropMarked '+' "-a\n".toList = ["a".toList] := by
  decide

/-- The run of `Format` on `"a"` and `"a\n"` (C6): the unterminated line is dropped by the
splitter, and the output is the insertion of `a` alone, without the deletion of
`a(missing final newline)`. -/
theorem Format_missing_newline_eval :
    splitLines "a".toList = some [] ∧
    Format "a".toList "a\n".toList [] = some "+a\n".toList := by
  decide

/-- The run of `Format` on `"a"` and `""` (C7): the first text is not empty and lacks a
final newline, the second is empty, and the output is empty with and without
`OptSuppressCommon`: no line starts with `-` or `+`. -/
theorem Format_discrepancy_hidden :
    "a".toList ≠ [] ∧ HasSuffix "a".toList ['\n'] = false ∧
    Format "a".toList [] [] = some [] ∧ changedCount [] = 0 ∧
    Format "a".toList [] [OptSuppressCommon] = some [] := by
  decide

/-- Disjoint texts, with respect to the line sequences the splitter computes: when no
line of the first computed sequence is equal to a line of the second, `Format` gives every
line of the first with `-` and then every line of the second with `+`; with
`OptSuppressCommon` the deletions are numbered from 1 and then the insertions from 1; and
`Format("", T)` is the computed lines of `T` with `+`, `Format(T, "")` those with `-`. The
computed sequences lack an unterminated last line. -/
theorem Format_disjoint (text1 text2 : GoString) (seq1 seq2 : List GoString)
    (h1 : splitLines text1 = some seq1) (h2 : splitLines text2 = some seq2)
    (h : ∀ a ∈ seq1, a ∉ seq2) :
    Format text1 text2 [] = some (markedText '-' seq1 ++ markedText '+' seq2) ∧
    Format text1 text2 [OptSuppressCommon] =
      some (numberedText '-' 0 seq1 ++ numberedText '+' 0 seq2) ∧
    Format [] text2 [] = some (markedText '+' seq2) ∧
    Format text1 [] [] = some (markedText '-' seq1) := by
  rw [splitLines_eq] at h1 h2
  cases h1
  cases h2
  have e : lines [] = [] := by decide
  refine ⟨?_, ?_, ?_, ?_⟩
  · rw [Format_plain, script_disjoint _ _ h, render_plain_delete_insert]
  · rw [Format_suppress, script_disjoint _ _ h, render_suppress_delete_insert]
  · rw [Format_plain, e, script_disjoint [] _ (fun a ha => absurd ha (List.not_mem_nil a)),
      render_plain_delete_insert]
    rfl
  · rw [Format_plain, e, script_disjoint _ [] (fun a _ => List.not_mem_nil a),
      render_plain_delete_insert]
    exact congrArg some (List.append_nil _)

/-- The test row `"a b c"`, `"d e f"` of `formatTests`, by `Format_disjoint`. -/
theorem Format_disjoint_witness :
    splitLines "a\nb\nc\n".toList = some ["a".toList, "b".toList, "c".toList] ∧
    splitLines "d\ne\nf\n".toList = some ["d".toList, "e".toList, "f".toList] ∧
    Format "a\nb\nc\n".toList "d\ne\nf\n".toList [] = some "-a\n-b\n-c\n+d\n+e\n+f\n".toList ∧
    Format "a\nb\nc\n".toList "d\ne\nf\n".toList [OptSuppressCommon] =
      some "1-a\n2-b\n3-c\n1+d\n2+e\n3+f\n".toList :=
  have h := Format_disjoint "a\nb\nc\n".toList "d\ne\nf\n".toList
    ["a".toList, "b".toList, "c".toList] ["d".toList, "e".toList, "f".toList]
    (by decide) (by decide) (by decide)
  ⟨by decide, by decide, h.1, h.2.1⟩

/-- C9 (single interior deletion): for line sequences `X`, `Y` and a line `c`, none
containing a newline, with `Y` empty or `c` different from the first line of `Y`, `Format`
of the newline-terminated texts of `X ++ [c] ++ Y` and `X ++ Y` is the lines of `X` with a
space, then `-c`, then the lines of `Y` with a space; with `OptSuppressCommon` it is the
decimal of `|X| + 1` followed by `-c`. -/
theorem Format_single_deletion (X Y : List GoString) (c : GoString)
    (hX : ∀ l ∈ X, '\n' ∉ l) (hc : '\n' ∉ c) (hY : ∀ l ∈ Y, '\n' ∉ l)
    (hne : Y.head? ≠ some c) :
    Format (joinLines (X ++ [c] ++ Y)) (joinLines (X ++ Y)) [] =
      some (markedText ' ' X ++ ('-' :: c ++ ['\n']) ++ markedText ' ' Y) ∧
    Format (joinLines (X ++ [c] ++ Y)) (joinLines (X ++ Y)) [OptSuppressCommon] =
      some (decimal (X.length + 1) ++ ('-' :: c ++ ['\n'])) := by
  have e1 : lines (joinLines (X ++ [c] ++ Y)) = X ++ c :: Y := by
    rw [lines_joinLines]
    · simp
    · intro l hl
      simp only [List.append_assoc, List.mem_append, List.mem_singleton] at hl
      rcases hl with hl | hl | hl
      · exact hX l hl
      · rw [hl]; exact hc
      · exact hY l hl
  have e2 : lines (joinLines (X ++ Y)) = X ++ Y := by
    rw [lines_joinLines]
    intro l hl
    rcases List.mem_append.mp hl with hl | hl
    · exact hX l hl
    · exact hY l hl
  constructor
  · rw [Format_plain, e1, e2, script_append_same, script_delete_first c Y hne, render_plain]
    simp [joinLines_append, joinLines, opLine, markedText, List.map_map]
    rfl
  · rw [Format_suppress, e1, e2, script_append_same, script_delete_first c Y hne,
      render_suppress_keep_append, render, render_suppress_keep]
    simp

/-- The test row `"a b c d e f"`, `"a b d e f"` of `formatTests`, by C9. -/
theorem Format_single_deletion_witness :
    Format "a\nb\nc\nd\ne\nf\n".toList "a\nb\nd\ne\nf\n".toList [] =
      some " a\n b\n-c\n d\n e\n f\n".toList ∧
    Format "a\nb\nc\nd\ne\nf\n".toList "a\nb\nd\ne\nf\n".toList [OptSuppressCommon] =
      some "3-c\n".toList :=
  Format_single_deletion ["a".toList, "b".toList] ["d".toList, "e".toList, "f".toList]
    "c".toList (by decide) (by decide) (by decide) (by decide)

/-- C10 (single interior insertion): for line sequences `X`, `Y` and a line `d`, none
containing a newline, with `Y` empty or `d` different from the first line of `Y`, `Format`
of the newline-terminated texts of `X ++ Y` and `X ++ [d] ++ Y` with `OptSuppressCommon` is
the decimal of `|X| + 1` followed by `+d`; without options it is the lines of `X` with a
space, then `+d`, then the lines of `Y` with a space. -/
theorem Format_single_insertion (X Y : List GoString) (d : GoString)
    (hX : ∀ l ∈ X, '\n' ∉ l) (hd : '\n' ∉ d) (hY : ∀ l ∈ Y, '\n' ∉ l)
    (hne : Y.head? ≠ some d) :
    Format (joinLines (X ++ Y)) (joinLines (X ++ [d] ++ Y)) [OptSuppressCommon] =
      some (decimal (X.length + 1) ++ ('+' :: d ++ ['\n'])) ∧
    Format (joinLines (X ++ Y)) (joinLines (X ++ [d] ++ Y)) [] =
      some (markedText ' ' X ++ ('+' :: d ++ ['\n']) ++ markedText ' ' Y) := by
  have e1 : lines (joinLines (X ++ [d] ++ Y)) = X ++ d :: Y := by
    rw [lines_joinLines]
    · simp
    · intro l hl
      simp only [List.append_assoc, List.mem_append, List.mem_singleton] at hl
      rcases hl with hl | hl | hl
      · exact hX l hl
      · rw [hl]; exact hd
      · exact hY l hl
  have e2 : lines (joinLines (X ++ Y)) = X ++ Y := by
    rw [lines_joinLines]
    intro l hl
    rcases List.mem_append.mp hl with hl | hl
    · exact hX l hl
    · exact hY l hl
  constructor
  · rw [Format_suppress, e1, e2, script_append_same, script_insert_first d Y hne,
      render_suppress_keep_append, render, render_suppress_keep]
    simp
  · rw [Format_plain, e1, e2, script_append_same, script_insert_first d Y hne, render_plain]
    simp [joinLines_append, joinLines, opLine, markedText, List.map_map]
    rfl

/-- The test row `"a b c e f"`, `"a b c d e f"` of `formatTests`, by C10. -/
theorem Format_single_insertion_witness :
    Format "a\nb\nc\ne\nf\n".toList "a\nb\nc\nd\ne\nf\n".toList [OptSuppressCommon] =
      some "4+d\n".toList ∧
    Format "a\nb\nc\ne\nf\n".toList "a\nb\nc\nd\ne\nf\n".toList [] =
      some " a\n b\n c\n+d\n e\n f\n".toList :=
  Format_single_insertion ["a".toList, "b".toList, "c".toList] ["e".toList, "f".toList]
    "d".toList (by decide) (by decide) (by decide) (by decide)

/-! ## The meaning of the table -/

/-- The recurrence computes the edit distance. -/
theorem editDist_isEditDistance (xs ys : List GoString) :
    IsEditDistance xs ys (editDist xs ys) := by
  refine ⟨⟨script xs ys, (script_source_target xs ys).1, (script_source_target xs ys).2,
    scriptCost_script xs ys⟩, ?_⟩
  intro ops h1 h2
  rw [← scriptCost_script]
  exact script_minimal xs ys ops h1 h2

/-- Two sequences have one edit distance. -/
theorem IsEditDistance_unique (xs ys : List GoString) (d e : Nat)
    (hd : IsEditDistance xs ys d) (he : IsEditDistance xs ys e) : d = e := by
  obtain ⟨⟨ops1, a1, a2, a3⟩, hmin1⟩ := hd
  obtain ⟨⟨ops2, b1, b2, b3⟩, hmin2⟩ := he
  have := hmin1 ops2 b1 b2
  have := hmin2 ops1 a1 a2
  omega

/-- C11 (table meaning, suffix-indexed): the table is built, and for all `i <= m` and
`j <= n` the entry `dist[i][j]` is the minimum number of line insertions and deletions
that turn the last `i` lines of `seq1` into the last `j` lines of `seq2`; `dist[0][j] = j`,
`dist[i][0] = i`, and `dist[m][n]` is the edit distance of the whole sequences. -/
theorem dist_suffix_meaning (seq1 seq2 : List GoString) :
    ∃ dist, buildDist seq1 seq2 = some dist ∧
      (∀ i j, i ≤ seq1.length → j ≤ seq2.length →
        ∃ d, getCell dist i j = some d ∧
          IsEditDistance (seq1.drop (seq1.length - i)) (seq2.drop (seq2.length - j)) d) ∧
      (∀ j, j ≤ seq2.length → getCell dist 0 j = some j) ∧
      (∀ i, i ≤ seq1.length → getCell dist i 0 = some i) ∧
      (∃ d, getCell dist seq1.length seq2.length = some d ∧ IsEditDistance seq1 seq2 d) := by
  obtain ⟨dist, hb, hd⟩ := buildDist_spec seq1 seq2
  refine ⟨dist, hb, ?_, ?_, ?_, ?_⟩
  · intro i j hi hj
    exact ⟨_, hd i j hi hj, editDist_isEditDistance _ _⟩
  · intro j hj
    rw [hd 0 j (Nat.zero_le _) hj, distSpec_zero_left _ _ _ hj]
  · intro i hi
    rw [hd i 0 hi (Nat.zero_le _), distSpec_zero_right _ _ _ hi]
  · refine ⟨_, hd _ _ (Nat.le_refl _) (Nat.le_refl _), ?_⟩
    have h := editDist_isEditDistance seq1 seq2
    unfold distSpec
    simpa using h

/-- C12, as the comment of diff.go:49 states it, fails: for `lines1 = ["a"]`,
`lines2 = []` and `i = j = 0` the table holds `dist[0][0] = 0`, and `0` is not the edit
distance of `lines1[:1] = ["a"]` and `lines2[:0] = []`, which is `1`. -/
theorem dist_comment_counterexample :
    ∃ dist, buildDist ["a".toList] [] = some dist ∧
      getCell dist 0 0 = some 0 ∧
      IsEditDistance (["a".toList].take (["a".toList].length - 0))
        (([] : List GoString).take (([] : List GoString).length - 0)) 1 ∧
      ¬ IsEditDistance (["a".toList].take (["a".toList].length - 0))
        (([] : List GoString).take (([] : List GoString).length - 0)) 0 := by
  have h1 : IsEditDistance ["a".toList] [] 1 := by
    have h := editDist_isEditDistance ["a".toList] []
    rw [editDist_nil_right] at h
    exact h
  refine ⟨[[0], [1]], by decide, by decide, h1, ?_⟩
  intro h0
  have := IsEditDistance_unique _ _ _ _ h0 h1
  omega

/-- C12 (amended): for all `i <= len(lines1)` and `j <= len(lines2)` the entry
`dist[i][j]` is the edit distance between `lines1[len(lines1)-i:]` and
`lines2[len(lines2)-j:]`, the last `i` lines of `lines1` and the last `j` lines of
`lines2`. -/
theorem dist_comment_amended (lines1 lines2 : List GoString) (i j : Nat)
    (hi : i ≤ lines1.length) (hj : j ≤ lines2.length) :
    ∃ dist d, buildDist lines1 lines2 = some dist ∧ getCell dist i j = some d ∧
      IsEditDistance (lines1.drop (lines1.length - i)) (lines2.drop (lines2.length - j)) d := by
  obtain ⟨dist, hb, hd⟩ := buildDist_spec lines1 lines2
  exact ⟨dist, _, hb, hd i j hi hj, editDist_isEditDistance _ _⟩

/-- The table of `["a", "b"]` and `["b"]` at `i = 1`, `j = 1`, by C12 (amended): the last
lines are both `b`, and the entry is `0`. -/
theorem dist_comment_amended_witness :
    ∃ dist d, buildDist ["a".toList, "b".toList] ["b".toList] = some dist ∧
      getCell dist 1 1 = some d ∧
      IsEditDistance (["a".toList, "b".toList].drop (2 - 1)) (["b".toList].drop (1 - 1)) d :=
  dist_comment_amended ["a".toList, "b".toList] ["b".toList] 1 1 (by decide) (by decide)

/-! ## Totality -/

/-- An iteration of the traceback raises neither `i` nor `j`. -/
theorem traceStep_le (c : config) (lines1 lines2 : List GoString) (dist : List (List Nat))
    (i j : Nat) (buf : GoString) (i2 j2 : Nat) (buf2 : GoString)
    (h : traceStep c lines1 lines2 dist i j buf = some (i2, j2, buf2)) :
    i2 ≤ i ∧ j2 ≤ j := by
  unfold traceStep at h
  dsimp only at h
  repeat' (split at h)
  all_goals simp only [Option.some.injEq, Prod.mk.injEq, reduceCtorEq] at h
  all_goals omega

theorem Reached_le (c : config) (lines1 lines2 : List GoString) (dist : List (List Nat))
    (i j : Nat) (buf : GoString) (h : Reached c lines1 lines2 dist i j buf) :
    i ≤ lines1.length ∧ j ≤ lines2.length := by
  induction h with
  | start => exact ⟨Nat.le_refl _, Nat.le_refl _⟩
  | step _ _ hs ih =>
    have := traceStep_le _ _ _ _ _ _ _ _ _ _ hs
    omega

/-- An iteration of the traceback in a state within the table does not panic. -/
theorem traceStep_some (c : config) (lines1 lines2 : List GoString) (dist : List (List Nat))
    (hd : ∀ i j, i ≤ lines1.length → j ≤ lines2.length →
      getCell dist i j = some (distSpec lines1 lines2 i j))
    (i j : Nat) (buf : GoString) (hi : i ≤ lines1.length) (hj : j ≤ lines2.length)
    (h0 : 0 < i ∨ 0 < j) :
    ∃ next, traceStep c lines1 lines2 dist i j buf = some next := by
  have h := traceLoop_spec c lines1 lines2 dist hd (i + j) i j buf hi hj (Nat.le_refl _)
  obtain ⟨k, hk⟩ : ∃ k, i + j = k + 1 := ⟨i + j - 1, by omega⟩
  rw [hk, traceLoop, if_pos (by omega)] at h
  cases hs : traceStep c lines1 lines2 dist i j buf with
  | none =>
    rw [hs] at h
    cases h
  | some next => exact ⟨next, rfl⟩

/-- In a state within the table where neither the match nor the delete condition holds,
a line of the second text remains and the entry is one more than its left neighbour. -/
theorem insert_branch (lines1 lines2 : List GoString) (dist : List (List Nat))
    (hd : ∀ i j, i ≤ lines1.length → j ≤ lines2.length →
      getCell dist i j = some (distSpec lines1 lines2 i j))
    (i j : Nat) (hi : i ≤ lines1.length) (hj : j ≤ lines2.length) (h0 : 0 < i ∨ 0 < j)
    (hm : matchCond lines1 lines2 dist i j (distSpec lines1 lines2 i j) = some false)
    (hdel : deleteCond dist i j (distSpec lines1 lines2 i j) = some false) :
    0 < j ∧ distSpec lines1 lines2 i j = distSpec lines1 lines2 i (j - 1) + 1 := by
  rcases i with _ | i
  · rcases j with _ | j
    · omega
    · refine ⟨Nat.succ_pos _, ?_⟩
      rw [distSpec_zero_left _ _ _ hj, Nat.add_sub_cancel, distSpec_zero_left _ _ _ (by omega)]
  · rcases j with _ | j
    · exfalso
      unfold deleteCond at hdel
      rw [if_pos (Nat.succ_pos _), Nat.add_sub_cancel, hd i 0 (by omega) hj,
        distSpec_zero_right _ _ _ hi, distSpec_zero_right _ _ _ (by omega)] at hdel
      simp at hdel
    · refine ⟨Nat.succ_pos _, ?_⟩
      obtain ⟨x, hx⟩ := getElem?_line lines1 (i + 1) (by omega) hi
      obtain ⟨y, hy⟩ := getElem?_line lines2 (j + 1) (by omega) hj
      have d11 : distSpec lines1 lines2 (i + 1) (j + 1) =
          editDist (x :: lines1.drop (lines1.length - i))
            (y :: lines2.drop (lines2.length - j)) := by
        unfold distSpec
        rw [drop_line lines1 i x hi hx, drop_line lines2 j y hj hy]
      have d01 : distSpec lines1 lines2 i (j + 1) =
          editDist (lines1.drop (lines1.length - i))
            (y :: lines2.drop (lines2.length - j)) := by
        unfold distSpec
        rw [drop_line lines2 j y hj hy]
      have d10 : distSpec lines1 lines2 (i + 1) j =
          editDist (x :: lines1.drop (lines1.length - i))
            (lines2.drop (lines2.length - j)) := by
        unfold distSpec
        rw [drop_line lines1 i x hi hx]
      have d00 : distSpec lines1 lines2 i j =
          editDist (lines1.drop (lines1.length - i)) (lines2.drop (lines2.length - j)) := rfl
      unfold deleteCond at hdel
      rw [if_pos (Nat.succ_pos _), Nat.add_sub_cancel, hd i (j + 1) (by omega) hj] at hdel
      unfold matchCond at hm
      rw [if_pos ⟨Nat.succ_pos _, Nat.succ_pos _⟩, Nat.add_sub_cancel, Nat.add_sub_cancel,
        hd i j (by omega) (by omega)] at hm
      simp only [hx, hy] at hm
      rw [Nat.add_sub_cancel, d10]
      rcases editDist_cases x y (lines1.drop (lines1.length - i))
        (lines2.drop (lines2.length - j)) with h | h | ⟨hxy, h⟩
      · rw [d11]
        exact h
      · exfalso
        rw [← d11, ← d01] at h
        simp [h] at hdel
      · exfalso
        rw [← d11, ← d00] at h
        simp [h, hxy] at hm

/-- C13 (totality): for all texts and options `Format` returns, that is, no slice or
index expression of the model is out of range: `strings.Split` yields at least one piece,
both line sequences and the table are built, every iteration of the traceback in a state
the loop goes through succeeds, and whenever such an iteration takes neither the match
nor the delete branch, `j > 0` and `dist[i][j] = dist[i][j-1] + 1`. -/
theorem Format_total (text1 text2 : GoString) (options : List option) :
    (∀ s : GoString, 0 < (Split s '\n').length) ∧
    ∃ seq1 seq2 dist out,
      splitLines text1 = some seq1 ∧ splitLines text2 = some seq2 ∧
      buildDist seq1 seq2 = some dist ∧
      Format text1 text2 options = some out ∧
      ∀ i j buf,
        Reached (options.foldl (fun c opt => opt c) {}) seq1 seq2 dist i j buf →
        (0 < i ∨ 0 < j) →
        (∃ next, traceStep (options.foldl (fun c opt => opt c) {}) seq1 seq2 dist i j buf
          = some next) ∧
        ∃ cost, getCell dist i j = some cost ∧
          (matchCond seq1 seq2 dist i j cost = some false →
            deleteCond dist i j cost = some false →
            0 < j ∧ ∃ left line, getCell dist i (j - 1) = some left ∧ cost = left + 1 ∧
              seq2[seq2.length - j]? = some line) := by
  refine ⟨fun s => List.length_pos.mpr (Split_ne_nil s '\n'), ?_⟩
  obtain ⟨dist, hb, hd⟩ := buildDist_spec (lines text1) (lines text2)
  refine ⟨lines text1, lines text2, dist, _, splitLines_eq text1, splitLines_eq text2, hb,
    Format_eq text1 text2 options, ?_⟩
  intro i j buf hr h0
  obtain ⟨hi, hj⟩ := Reached_le _ _ _ _ _ _ _ hr
  refine ⟨traceStep_some _ _ _ _ hd i j buf hi hj h0, _, hd i j hi hj, ?_⟩
  intro hm hdel
  obtain ⟨hj0, he⟩ := insert_branch _ _ dist hd i j hi hj h0 hm hdel
  obtain ⟨line, hl⟩ := getElem?_line (lines text2) j hj0 hj
  exact ⟨hj0, _, line, hd i (j - 1) hi (by omega), he, hl⟩

/-! ## The splitter on terminated texts -/

/-- The pieces of a text but the last, each followed by a newline, and then the last
piece, are the text. -/
theorem Split_decompose (s : GoString) :
    ∃ init last, Split s '\n' = init ++ [last] ∧ joinLines init ++ last = s := by
  induction s with
  | nil => exact ⟨[], [], rfl, rfl⟩
  | cons ch rest ih =>
    obtain ⟨init, last, h1, h2⟩ := ih
    by_cases hc : ch = '\n'
    · refine ⟨[] :: init, last, ?_, ?_⟩
      · rw [Split, if_pos hc, h1]
        rfl
      · rw [hc, joinLines, ← h2]
        rfl
    · cases init with
      | nil =>
        refine ⟨[], ch :: last, ?_, ?_⟩
        · rw [Split, if_neg hc, h1]
          rfl
        · rw [← h2]
          rfl
      | cons p init =>
        refine ⟨(ch :: p) :: init, last, ?_, ?_⟩
        · rw [Split, if_neg hc, h1]
          rfl
        · rw [← h2]
          rfl

theorem HasSuffix_newline_iff (s : GoString) :
    HasSuffix s ['\n'] = true ↔ ∃ t, s = t ++ ['\n'] := by
  unfold HasSuffix
  rw [List.isSuffixOf_iff_suffix]
  constructor
  · rintro ⟨t, ht⟩
    exact ⟨t, ht.symm⟩
  · rintro ⟨t, ht⟩
    exact ⟨t, ht.symm⟩

/-- The lines of a text that is empty or ends with a newline, each followed by a newline,
are the text. -/
theorem joinLines_lines_terminated (text : GoString)
    (h : text = [] ∨ HasSuffix text ['\n'] = true) : joinLines (lines text) = text := by
  have hm : ¬ (text ≠ [] ∧ ¬ HasSuffix text ['\n'] = true) := by
    rintro ⟨h1, h2⟩
    rcases h with h | h
    · exact h1 h
    · exact h2 h
  obtain ⟨init, last, h1, h2⟩ := Split_decompose text
  have hlast : last = [] := by
    rcases h with h | h
    · rw [h] at h2
      exact (List.append_eq_nil.mp h2).2
    · obtain ⟨t, ht⟩ := (HasSuffix_newline_iff text).mp h
      rcases List.eq_nil_or_concat last with e | ⟨l, c, e⟩
      · exact e
      · exfalso
        have hn : '\n' ∉ last :=
          Split_mem text '\n' last (by rw [h1]; simp)
        rw [e, ht, List.concat_eq_append, ← List.append_assoc] at h2
        have := (List.append_inj' h2 rfl).2
        simp only [List.cons.injEq, and_true] at this
        apply hn
        rw [e, this]
        simp
  unfold lines
  rw [if_neg hm, h1, List.dropLast_concat]
  rw [hlast, List.append_nil] at h2
  exact h2

theorem Split_length (s : GoString) (sep : Char) :
    (Split s sep).length = s.count sep + 1 := by
  induction s with
  | nil => rfl
  | cons ch rest ih =>
    by_cases hc : ch = sep
    · rw [Split, if_pos hc, List.length_cons, ih, hc, List.count_cons_self]
    · rw [Split, if_neg hc, List.count_cons_of_ne (fun e => hc e.symm)]
      cases hs : Split rest sep with
      | nil => exact absurd hs (Split_ne_nil rest sep)
      | cons piece pieces =>
        rw [hs] at ih
        simpa using ih

/-- The splitter on a text that is empty or ends with a newline: no line contains a
newline, the lines each followed by a newline are the text, and there are as many lines
as newlines. -/
theorem lines_roundtrip_terminated (text : GoString)
    (h : text = [] ∨ HasSuffix text ['\n'] = true) :
    splitLines text = some (lines text) ∧ (∀ l ∈ lines text, '\n' ∉ l) ∧
      joinLines (lines text) = text ∧ (lines text).length = text.count '\n' := by
  refine ⟨splitLines_eq text, lines_no_newline text, joinLines_lines_terminated text h, ?_⟩
  have hm : ¬ (text ≠ [] ∧ ¬ HasSuffix text ['\n'] = true) := by
    rintro ⟨h1, h2⟩
    rcases h with h | h
    · exact h1 h
    · exact h2 h
  unfold lines
  rw [if_neg hm, List.length_dropLast, Split_length]
  rfl

/-- The run of the splitter on `"x\ny"` (C14): the text is not empty and does not end
with a newline, the splitter returns the line `x` alone, and its lines each followed by a
newline are `"x\n"`, not the text followed by the marker and a newline. -/
theorem splitLines_unterminated_eval :
    "x\ny".toList ≠ [] ∧ HasSuffix "x\ny".toList ['\n'] = false ∧
    splitLines "x\ny".toList = some ["x".toList] ∧
    joinLines ["x".toList] = "x\n".toList ∧
    joinLines ["x".toList] ≠ "x\ny".toList ++ missingFinalNewline ++ ['\n'] := by
  decide

/-! ## A common first part of two texts -/

theorem HasSuffix_append (P T : GoString) (hT : T ≠ []) :
    HasSuffix (P ++ T) ['\n'] = HasSuffix T ['\n'] := by
  rcases List.eq_nil_or_concat T with e | ⟨l, c, e⟩
  · exact absurd e hT
  · have key : ∀ X : GoString, HasSuffix (X ++ [c]) ['\n'] = true ↔ c = '\n' := by
      intro X
      rw [HasSuffix_newline_iff]
      constructor
      · rintro ⟨t, ht⟩
        have := (List.append_inj' ht rfl).2
        simpa using this
      · intro hc
        exact ⟨X, by rw [hc]⟩
    rw [e, List.concat_eq_append, ← List.append_assoc]
    have h1 := key (P ++ l)
    have h2 := key l
    cases ha : HasSuffix (P ++ l ++ [c]) ['\n'] <;> cases hb : HasSuffix (l ++ [c]) ['\n']
    · rfl
    · exact absurd (h1.mpr (h2.mp hb)) (by rw [ha]; simp)
    · exact absurd (h2.mpr (h1.mp ha)) (by rw [hb]; simp)
    · rfl

theorem Split_joinLines_append (ls : List GoString) (s : GoString)
    (h : ∀ l ∈ ls, '\n' ∉ l) :
    Split (joinLines ls ++ s) '\n' = ls ++ Split s '\n' := by
  induction ls with
  | nil => rfl
  | cons l ls ih =>
    rw [joinLines, List.append_assoc, List.cons_append,
      Split_append_sep l _ '\n' (h l (List.mem_cons_self _ _)),
      ih (fun l' hl' => h l' (List.mem_cons_of_mem _ hl'))]
    rfl

/-- The lines of a text after a first part that is empty or ends with a newline are the
lines of the first part and then the lines of the rest. -/
theorem lines_append (P T : GoString) (hP : P = [] ∨ HasSuffix P ['\n'] = true) :
    lines (P ++ T) = lines P ++ lines T := by
  by_cases hT : T = []
  · have e : lines [] = [] := by decide
    rw [hT, List.append_nil, e, List.append_nil]
  · have hPT : P ++ T ≠ [] := fun e => hT (List.append_eq_nil.mp e).2
    have hj := joinLines_lines_terminated P hP
    have hmark : (if P ++ T ≠ [] ∧ ¬ HasSuffix (P ++ T) ['\n'] = true
          then P ++ T ++ missingFinalNewline else P ++ T)
        = joinLines (lines P) ++ (if T ≠ [] ∧ ¬ HasSuffix T ['\n'] = true
          then T ++ missingFinalNewline else T) := by
      rw [HasSuffix_append P T hT, hj]
      by_cases hs : HasSuffix T ['\n'] = true
      · rw [if_neg (fun hh => hh.2 hs), if_neg (fun hh => hh.2 hs)]
      · rw [if_pos ⟨hPT, hs⟩, if_pos ⟨hT, hs⟩, List.append_assoc]
    have e : lines (P ++ T) = (Split (if P ++ T ≠ [] ∧ ¬ HasSuffix (P ++ T) ['\n'] = true
          then P ++ T ++ missingFinalNewline else P ++ T) '\n').dropLast := rfl
    rw [e, hmark, Split_joinLines_append _ _ (lines_no_newline P),
      List.dropLast_append_of_ne_nil _ (Split_ne_nil _ _)]
    rfl

theorem render_plain_keep_append (zs : List GoString) (ops : List EditOp) (k1 k2 : Nat) :
    render { suppressCommon := false } k1 k2 (zs.map EditOp.Keep ++ ops)
      = markedText ' ' zs ++ render { suppressCommon := false } 0 0 ops := by
  rw [render_plain, render_plain, List.map_append, joinLines_append, List.map_map]
  rfl

/-- C15 (common-prefix factoring): for a text `P` that is empty or ends with a newline and
all texts `T1`, `T2`, `Format(P ++ T1, P ++ T2)` without options is the lines of `P`, each
with a space in front and a newline behind, followed by `Format(T1, T2)`. -/
theorem Format_common_first_part (P T1 T2 : GoString)
    (hP : P = [] ∨ HasSuffix P ['\n'] = true) :
    ∃ seqP out, splitLines P = some seqP ∧ Format T1 T2 [] = some out ∧
      Format (P ++ T1) (P ++ T2) [] = some (markedText ' ' seqP ++ out) := by
  refine ⟨lines P, _, splitLines_eq P, Format_plain T1 T2, ?_⟩
  rw [Format_plain, lines_append P T1 hP, lines_append P T2 hP, script_append_same,
    render_plain_keep_append]

/-- The test row `"a b c"`, `"a b d e f"` of `formatTests`, by C15 with the first part
`"a\nb\n"`. -/
theorem Format_common_first_part_witness :
    HasSuffix "a\nb\n".toList ['\n'] = true ∧
    Format "c\n".toList "d\ne\nf\n".toList [] = some "-c\n+d\n+e\n+f\n".toList ∧
    Format "a\nb\nc\n".toList "a\nb\nd\ne\nf\n".toList [] =
      some " a\n b\n-c\n+d\n+e\n+f\n".toList := by
  obtain ⟨seqP, out, h1, h2, h3⟩ :=
    Format_common_first_part "a\nb\n".toList "c\n".toList "d\ne\nf\n".toList
      (Or.inr (by decide))
  have e1 : splitLines "a\nb\n".toList = some ["a".toList, "b".toList] := by decide
  have e2 : Format "c\n".toList "d\ne\nf\n".toList [] = some "-c\n+d\n+e\n+f\n".toList := by
    decide
  rw [e1] at h1
  rw [e2] at h2
  cases h1
  cases h2
  exact ⟨by decide, e2, h3⟩

/-- The splitter on a text whose last line is not terminated: the last line is dropped,
and the lines are those of the text before it. -/
theorem lines_unterminated (P L : GoString) (hP : P = [] ∨ HasSuffix P ['\n'] = true)
    (hL : L ≠ []) (hn : '\n' ∉ L) : lines (P ++ L) = lines P := by
  have hs : ¬ HasSuffix L ['\n'] = true := by
    intro h
    obtain ⟨t, ht⟩ := (HasSuffix_newline_iff L).mp h
    apply hn
    rw [ht]
    simp
  have hm : '\n' ∉ L ++ missingFinalNewline := by
    intro h
    rcases List.mem_append.mp h with h | h
    · exact hn h
    · revert h
      decide
  have e : lines L = [] := by
    unfold lines
    rw [if_pos ⟨hL, hs⟩, Split_no_sep _ _ hm]
    rfl
  rw [lines_append P L hP, e, List.append_nil]

/-! ## The greedy match -/

/-- Equal current lines: the entry is the entry of the diagonal neighbour. -/
theorem distSpec_same (lines1 lines2 : List GoString) (i j : Nat) (x : GoString)
    (hi : i + 1 ≤ lines1.length) (hj : j + 1 ≤ lines2.length)
    (hx : lines1[lines1.length - (i + 1)]? = some x)
    (hy : lines2[lines2.length - (j + 1)]? = some x) :
    distSpec lines1 lines2 (i + 1) (j + 1) = distSpec lines1 lines2 i j := by
  unfold distSpec
  rw [drop_line lines1 i x hi hx, drop_line lines2 j x hj hy, editDist_cons_same]

theorem matchCond_eq_greedy (lines1 lines2 : List GoString) (dist : List (List Nat))
    (hd : ∀ i j, i ≤ lines1.length → j ≤ lines2.length →
      getCell dist i j = some (distSpec lines1 lines2 i j))
    (i j : Nat) (hi : i ≤ lines1.length) (hj : j ≤ lines2.length) :
    matchCond lines1 lines2 dist i j (distSpec lines1 lines2 i j)
      = matchCondGreedy lines1 lines2 i j := by
  unfold matchCond matchCondGreedy
  by_cases h0 : i > 0 ∧ j > 0
  · obtain ⟨i, rfl⟩ : ∃ k, i = k + 1 := ⟨i - 1, by omega⟩
    obtain ⟨j, rfl⟩ : ∃ k, j = k + 1 := ⟨j - 1, by omega⟩
    obtain ⟨x, hx⟩ := getElem?_line lines1 (i + 1) (by omega) hi
    obtain ⟨y, hy⟩ := getElem?_line lines2 (j + 1) (by omega) hj
    rw [if_pos h0, if_pos h0, Nat.add_sub_cancel, Nat.add_sub_cancel,
      hd i j (by omega) (by omega)]
    simp only [hx, hy]
    by_cases hxy : x = y
    · subst hxy
      rw [if_pos (distSpec_same lines1 lines2 i j x hi hj hx hy)]
    · simp [hxy]
  · rw [if_neg h0, if_neg h0]

theorem traceStep_eq_greedy (c : config) (lines1 lines2 : List GoString)
    (dist : List (List Nat))
    (hd : ∀ i j, i ≤ lines1.length → j ≤ lines2.length →
      getCell dist i j = some (distSpec lines1 lines2 i j))
    (i j : Nat) (buf : GoString) (hi : i ≤ lines1.length) (hj : j ≤ lines2.length) :
    traceStep c lines1 lines2 dist i j buf = traceStepGreedy c lines1 lines2 dist i j buf := by
  unfold traceStep traceStepGreedy
  rw [hd i j hi hj]
  simp only []
  rw [matchCond_eq_greedy lines1 lines2 dist hd i j hi hj]

theorem traceLoop_eq_greedy (c : config) (lines1 lines2 : List GoString)
    (dist : List (List Nat))
    (hd : ∀ i j, i ≤ lines1.length → j ≤ lines2.length →
      getCell dist i j = some (distSpec lines1 lines2 i j)) :
    ∀ (fuel i j : Nat) (buf : GoString), i ≤ lines1.length → j ≤ lines2.length →
      traceLoop c lines1 lines2 dist fuel i j buf
        = traceLoopGreedy c lines1 lines2 dist fuel i j buf := by
  intro fuel
  induction fuel with
  | zero =>
    intro i j buf _ _
    rw [traceLoop, traceLoopGreedy]
  | succ fuel ih =>
    intro i j buf hi hj
    rw [traceLoop, traceLoopGreedy]
    by_cases h0 : i > 0 ∨ j > 0
    · rw [if_pos h0, if_pos h0]
      rw [← traceStep_eq_greedy c lines1 lines2 dist hd i j buf hi hj]
      cases hs : traceStep c lines1 lines2 dist i j buf with
      | none => rfl
      | some next =>
        obtain ⟨i2, j2, buf2⟩ := next
        have := traceStep_le _ _ _ _ _ _ _ _ _ _ hs
        exact ih i2 j2 buf2 (by omega) (by omega)
    · rw [if_neg h0, if_neg h0]

/-- C16 (greedy match): in the table of any two sequences, equal current lines at
`1 <= i <= m`, `1 <= j <= n` give `dist[i][j] = dist[i-1][j-1]`, so that the match
condition of the traceback holds there; and `Format` is equal, for all texts and
options, to the variant whose match condition is only `i > 0`, `j > 0` and line
equality. -/
theorem Format_greedy_match :
    (∀ seq1 seq2 : List GoString, ∃ dist, buildDist seq1 seq2 = some dist ∧
      ∀ i j, 1 ≤ i → i ≤ seq1.length → 1 ≤ j → j ≤ seq2.length →
        seq1[seq1.length - i]? = seq2[seq2.length - j]? →
        ∃ cost, getCell dist i j = some cost ∧ getCell dist (i - 1) (j - 1) = some cost ∧
          matchCond seq1 seq2 dist i j cost = some true) ∧
    (∀ (text1 text2 : GoString) (options : List option),
      Format text1 text2 options = FormatGreedy text1 text2 options ∧
      ∃ out, FormatGreedy text1 text2 options = some out) := by
  constructor
  · intro seq1 seq2
    obtain ⟨dist, hb, hd⟩ := buildDist_spec seq1 seq2
    refine ⟨dist, hb, ?_⟩
    intro i j hi1 hi hj1 hj heq
    obtain ⟨i, rfl⟩ : ∃ k, i = k + 1 := ⟨i - 1, by omega⟩
    obtain ⟨j, rfl⟩ : ∃ k, j = k + 1 := ⟨j - 1, by omega⟩
    obtain ⟨x, hx⟩ := getElem?_line seq1 (i + 1) (by omega) hi
    have hy : seq2[seq2.length - (j + 1)]? = some x := by rw [← heq, hx]
    have hs := distSpec_same seq1 seq2 i j x hi hj hx hy
    refine ⟨_, hd (i + 1) (j + 1) hi hj, ?_, ?_⟩
    · rw [Nat.add_sub_cancel, Nat.add_sub_cancel, hd i j (by omega) (by omega), hs]
    · rw [matchCond_eq_greedy seq1 seq2 dist hd (i + 1) (j + 1) hi hj]
      unfold matchCondGreedy
      rw [if_pos ⟨Nat.succ_pos _, Nat.succ_pos _⟩]
      simp only [hx, hy, decide_True]
  · intro text1 text2 options
    have he : Format text1 text2 options = FormatGreedy text1 text2 options := by
      obtain ⟨dist, hb, hd⟩ := buildDist_spec (lines text1) (lines text2)
      unfold Format FormatGreedy
      simp only [splitLines_eq, hb]
      exact traceLoop_eq_greedy _ _ _ dist hd _ _ _ [] (Nat.le_refl _) (Nat.le_refl _)
    exact ⟨he, _, he ▸ Format_eq text1 text2 options⟩

/-! ## Deletions before insertions -/

theorem noPlusThenMinus_cons (a : GoString) (ls : List GoString)
    (h1 : a.head? ≠ some '+' ∨ ∀ b, ls.head? = some b → b.head? ≠ some '-')
    (h2 : noPlusThenMinus ls = true) : noPlusThenMinus (a :: ls) = true := by
  cases ls with
  | nil => rfl
  | cons b rest =>
    rw [noPlusThenMinus, h2, Bool.and_true]
    rcases h1 with h1 | h1
    · simp [h1]
    · simp [h1 b rfl]

theorem noPlusThenMinus_tail (a : GoString) (ls : List GoString)
    (h : noPlusThenMinus (a :: ls) = true) : noPlusThenMinus ls = true := by
  cases ls with
  | nil => rfl
  | cons b rest =>
    rw [noPlusThenMinus, Bool.and_eq_true] at h
    exact h.2

theorem noPlusThenMinus_head (a b : GoString) (rest : List GoString)
    (h : noPlusThenMinus (a :: b :: rest) = true) (ha : a.head? = some '+') :
    b.head? ≠ some '-' := by
  rw [noPlusThenMinus, Bool.and_eq_true] at h
  intro hb
  simp [ha, hb] at h

theorem noPlusThenMinus_drop (pre ls : List GoString)
    (h : noPlusThenMinus (pre ++ ls) = true) : noPlusThenMinus ls = true := by
  induction pre with
  | nil => exact h
  | cons a pre ih => exact ih (noPlusThenMinus_tail a _ h)

theorem noPlusThenMinus_take (ls post : List GoString) :
    noPlusThenMinus (ls ++ post) = true → noPlusThenMinus ls = true := by
  induction ls with
  | nil => intro _; rfl
  | cons a ls ih =>
    intro h
    cases ls with
    | nil => rfl
    | cons b rest =>
      have ht := ih (noPlusThenMinus_tail a _ h)
      have hh := noPlusThenMinus_head a b (rest ++ post) h
      rw [noPlusThenMinus, ht, Bool.and_true]
      by_cases ha : a.head? = some '+'
      · simp [ha, hh ha]
      · simp [ha]

/-- After a `+` line, a run of changed lines has `+` lines only. -/
theorem plus_run (run : List GoString) :
    ∀ a : GoString, noPlusThenMinus (a :: run) = true → a.head? = some '+' →
      (∀ l ∈ run, l.head? = some '-' ∨ l.head? = some '+') →
      ∀ l ∈ run, l.head? = some '+' := by
  induction run with
  | nil => intro a _ _ _ l hl; cases hl
  | cons b rest ih =>
    intro a h ha hc l hl
    have hb : b.head? = some '+' := by
      rcases hc b (List.mem_cons_self _ _) with e | e
      · exact absurd e (noPlusThenMinus_head a b rest h ha)
      · exact e
    rcases List.mem_cons.mp hl with e | e
    · rw [e]; exact hb
    · exact ih b (noPlusThenMinus_tail a _ h) hb
        (fun l' hl' => hc l' (List.mem_cons_of_mem _ hl')) l e

/-- A run of changed lines without `+` before `-` is `-` lines, then `+` lines. -/
theorem changed_run_shape (run : List GoString) :
    noPlusThenMinus run = true →
    (∀ l ∈ run, l.head? = some '-' ∨ l.head? = some '+') →
    ∃ k, (∀ l ∈ run.take k, l.head? = some '-') ∧ (∀ l ∈ run.drop k, l.head? = some '+') := by
  induction run with
  | nil => intro _ _; exact ⟨0, by simp, by simp⟩
  | cons a rest ih =>
    intro h hc
    rcases hc a (List.mem_cons_self _ _) with ha | ha
    · obtain ⟨k, h1, h2⟩ := ih (noPlusThenMinus_tail a _ h)
        (fun l hl => hc l (List.mem_cons_of_mem _ hl))
      refine ⟨k + 1, ?_, ?_⟩
      · intro l hl
        rw [List.take_succ_cons] at hl
        rcases List.mem_cons.mp hl with e | e
        · rw [e]; exact ha
        · exact h1 l e
      · intro l hl
        rw [List.drop_succ_cons] at hl
        exact h2 l hl
    · refine ⟨0, by simp, ?_⟩
      intro l hl
      rw [List.drop_zero] at hl
      rcases List.mem_cons.mp hl with e | e
      · rw [e]; exact ha
      · exact plus_run rest a h ha (fun l' hl' => hc l' (List.mem_cons_of_mem _ hl')) l e

theorem editDist_le_insert_right {α : Type} [DecidableEq α] (y : α) (xs ys : List α) :
    editDist xs (y :: ys) ≤ editDist xs ys + 1 := by
  cases xs with
  | nil => simp [editDist_nil_left]
  | cons x xs => exact editDist_le_insert x y xs ys

/-- When the traceback deletes first, the entry is one more than its upper neighbour. -/
theorem script_head_delete (x l : GoString) (xs ys : List GoString)
    (h : (script (x :: xs) ys).head? = some (EditOp.Delete l)) :
    editDist (x :: xs) ys = editDist xs ys + 1 := by
  cases ys with
  | nil => simp [editDist_nil_right]
  | cons y ys =>
    rw [script_cons_cons] at h
    split_ifs at h with h1 h2
    · simp at h
    · exact h2
    · simp at h

/-- The traceback never emits an insertion immediately before a deletion. -/
theorem script_noPlusThenMinus (xs : List GoString) :
    ∀ ys, noPlusThenMinus ((script xs ys).map opLine) = true := by
  induction xs with
  | nil =>
    intro ys
    rw [script_nil_left]
    induction ys with
    | nil => rfl
    | cons y ys ih =>
      refine noPlusThenMinus_cons _ _ (Or.inr ?_) ih
      intro b hb
      cases ys with
      | nil => simp at hb
      | cons y2 ys =>
        simp only [List.map_cons, List.head?_cons, Option.some.injEq] at hb
        rw [← hb]
        simp [opLine]
  | cons x xs ihx =>
    intro ys
    induction ys with
    | nil =>
      rw [script_cons_nil]
      exact noPlusThenMinus_cons _ _ (Or.inl (by simp [opLine])) (ihx [])
    | cons y ys ihy =>
      rw [script_cons_cons]
      split_ifs with h1 h2
      · exact noPlusThenMinus_cons _ _ (Or.inl (by simp [opLine])) (ihx ys)
      · exact noPlusThenMinus_cons _ _ (Or.inl (by simp [opLine])) (ihx (y :: ys))
      · refine noPlusThenMinus_cons _ _ (Or.inr ?_) ihy
        intro b hb hminus
        cases hs : script (x :: xs) ys with
        | nil => rw [hs] at hb; simp at hb
        | cons op ops =>
          rw [hs] at hb
          simp only [List.map_cons, List.head?_cons, Option.some.injEq] at hb
          rw [← hb] at hminus
          cases op with
          | Keep l => simp [opLine] at hminus
          | Insert l => simp [opLine] at hminus
          | Delete l =>
            have hdel := script_head_delete x l xs ys (by rw [hs]; rfl)
            have hle := editDist_le_delete x y xs ys
            have hins := editDist_le_insert_right y xs ys
            rcases editDist_cases x y xs ys with h | h | ⟨hxy, h⟩
            · omega
            · exact h2 h
            · exact h1 ⟨h, hxy⟩

/-- C17 (deletions precede insertions within a change run): in `Format(text1, text2)`
without options no line starting with `+` is immediately followed by a line starting with
`-`, and every run of consecutive changed lines is some `-` lines followed by some `+`
lines. -/
theorem Format_deletions_first (text1 text2 : GoString) :
    ∃ out, Format text1 text2 [] = some out ∧
      noPlusThenMinus (outputLines out) = true ∧
      ∀ pre run post : List GoString, outputLines out = pre ++ run ++ post →
        (∀ l ∈ run, l.head? = some '-' ∨ l.head? = some '+') →
        ∃ k, (∀ l ∈ run.take k, l.head? = some '-') ∧
          (∀ l ∈ run.drop k, l.head? = some '+') := by
  have hn : noPlusThenMinus (outputLines (render { suppressCommon := false } 0 0
      (script (lines text1) (lines text2)))) = true := by
    rw [outputLines_render]
    exact script_noPlusThenMinus _ _
  refine ⟨_, Format_plain text1 text2, hn, ?_⟩
  intro pre run post he hc
  rw [he, List.append_assoc] at hn
  exact changed_run_shape run
    (noPlusThenMinus_take run post (noPlusThenMinus_drop pre _ hn)) hc

/-! ## The properties that meet the dropped last line -/

/-- The run of `Format` on `"a"` and `""` (C1): the first text is its one unterminated
line, which the splitter drops, so the output has no `-` or `+` line; the marked line
sequence `["a(missing final newline)"]` and the empty one have no common subsequence but
the empty one, `m + n - 2 * LCS = 1`, and their edit distance is `1`. -/
theorem Format_minimal_unterminated_eval :
    "a".toList ≠ [] ∧ HasSuffix "a".toList ['\n'] = false ∧
    splitLines "a".toList = some [] ∧
    Format "a".toList [] [] = some [] ∧ changedCount [] = 0 ∧
    (∀ l : List GoString, List.Sublist l ["a".toList ++ missingFinalNewline] →
      List.Sublist l [] → l.length = 0) ∧
    ["a".toList ++ missingFinalNewline].length + ([] : List GoString).length - 2 * 0 = 1 ∧
    IsEditDistance ["a".toList ++ missingFinalNewline] [] 1 := by
  refine ⟨by decide, by decide, by decide, by decide, by decide, ?_, by decide, ?_⟩
  · intro l _ h2
    rw [List.sublist_nil.mp h2]
    rfl
  · have h := editDist_isEditDistance ["a".toList ++ missingFinalNewline] []
    rw [editDist_nil_right] at h
    exact h

/-- The run of `Format` on `"a"` and `"a"` (C3): the text is its one unterminated line,
which the splitter drops, so the output is empty and not the marked line
`a(missing final newline)` with a space in front. -/
theorem Format_identity_unterminated_eval :
    "a".toList ≠ [] ∧ HasSuffix "a".toList ['\n'] = false ∧
    splitLines "a".toList = some [] ∧
    Format "a".toList "a".toList [] = some [] ∧
    markedText ' ' ["a".toList ++ missingFinalNewline]
      = " a(missing final newline)\n".toList ∧
    markedText ' ' ["a".toList ++ missingFinalNewline] ≠ [] := by
  decide

/-- The run of `Format` on `"a"` and `"b"` (C5): both texts are one unterminated line,
which the splitter drops, so the output has no `-` or `+` line, while the marked line
sequences have `m + n = 2` lines and no line in common. -/
theorem Format_length_bound_unterminated_eval :
    splitLines "a".toList = some [] ∧ splitLines "b".toList = some [] ∧
    Format "a".toList "b".toList [] = some [] ∧ changedCount [] = 0 ∧
    (∀ x ∈ ["a".toList ++ missingFinalNewline], x ∉ ["b".toList ++ missingFinalNewline]) ∧
    ["a".toList ++ missingFinalNewline].length + ["b".toList ++ missingFinalNewline].length
      = 2 := by
  decide

/-- The run of `Format` on `""` and `"a\nb"` (C8): the unterminated last line `b` of the
second text is dropped by the splitter, so the output is `+a` alone and not every line of
the second text with `+`; on `""` and `"a"` the output is empty. -/
theorem Format_disjoint_unterminated_eval :
    splitLines "a\nb".toList = some ["a".toList] ∧
    Format [] "a\nb".toList [] = some "+a\n".toList ∧
    Format [] "a\nb".toList [OptSuppressCommon] = some "1+a\n".toList ∧
    markedText '+' ["a".toList, "b".toList ++ missingFinalNewline]
      = "+a\n+b(missing final newline)\n".toList ∧
    Format [] "a".toList [] = some [] := by
  decide

end diff
